import Mathlib

/-!
Verification of the bonsai tree store (db/database.go) against its
natural-language specification.

The store persists a forest of conversation nodes in a SQLite table
(primary key id) plus a singleton "current_node" configuration record.
We embed the table as a list of rows in insertion (rowid) order with the
current pointer alongside.  SQL operations are translated directly:
exact-match lookup is List.find? over the rows, a WHERE parent = ? scan
is List.filter in row order, ORDER BY id is a sort by id, DELETE is a
filter with the count of removed rows as RowsAffected.

The Go functions GetParentPath, GetConversationHistory and
collectNodeAndChildren contain loops or recursion whose termination is
not structural (a cyclic parent chain would make the two walks loop
forever); they are embedded with an explicit fuel parameter, returning
none when the fuel is exhausted.  Whenever the Go function terminates,
some fuel makes the embedded function return some with the same result,
so every theorem conditioned on a some result speaks about exactly the
terminating runs of the source.

uuid.New().String() is modelled as an explicit freshID argument, with
freshness (the id not occurring in the table) as a hypothesis where a
claim needs it.  A failing backend write of the current pointer (the
only partial-failure path the claims mention) is modelled by the
boolean setCurrentFails argument.
-/

namespace Bonsai

/-- One row of the Node table.  Field Type of the Go struct is renamed
to typ because Type is reserved in Lean.  The spec calls typ the kind
of the node, writing assistant for the source literal "llm". -/
structure Node where
  ID : String
  Content : String
  typ : String
  Parent : Option String
  Children : String
  Model : Option String
deriving DecidableEq

/-- The persistent state owned by the store: the Node table rows in
rowid (insertion) order, and the singleton current_node config record. -/
structure DB where
  nodes : List Node
  currentNode : Option String
deriving DecidableEq

/-- GetNodeByID: SELECT ... FROM Node WHERE id = ?, error NotFound when
no row matches (none here). -/
def getNodeByID (db : DB) (nodeID : String) : Option Node :=
  db.nodes.find? (fun n => decide (n.ID = nodeID))

/-- InsertNode: INSERT INTO Node VALUES (...), appending a row. -/
def insertNode (db : DB) (node : Node) : DB :=
  { db with nodes := db.nodes ++ [node] }

/-- SetCurrentNode: INSERT INTO Config ... ON CONFLICT DO UPDATE for the
current_node key. -/
def setCurrentNode (db : DB) (nodeID : String) : DB :=
  { db with currentNode := some nodeID }

/-- Outcome of the node-creation operations.  Go returns a pair of a
possibly-nil node and a possibly-nil error; the four reachable shapes
are the four constructors.  okWarn is the partial outcome where the
insert succeeded but setting the current pointer failed: the Go code
returns the created node together with a non-nil wrapped error
(created node but failed to set as current). -/
inductive CreateResult where
  | ok (node : Node) (db : DB)
  | okWarn (node : Node) (db : DB)
  | errParentNotFound
  | errInvalidType (t : String)
deriving DecidableEq

/-- CreateRootNode: builds a root row (type user, no parent, children
the literal string for an empty list), inserts it, then best-effort
sets the current pointer. -/
def createRootNode (db : DB) (freshID content : String) (model : Option String)
    (setCurrentFails : Bool) : CreateResult :=
  let node : Node :=
    { ID := freshID, Content := content, typ := "user", Parent := none,
      Children := "[]", Model := model }
  let db2 := insertNode db node
  if setCurrentFails then CreateResult.okWarn node db2
  else CreateResult.ok node (setCurrentNode db2 node.ID)

/-- CreateChildNodeWithType: verifies the parent exists, validates the
type against the literals user and llm, inserts the child row, then
best-effort sets the current pointer. -/
def createChildNodeWithType (db : DB) (freshID content parentID nodeType : String)
    (model : Option String) (setCurrentFails : Bool) : CreateResult :=
  match getNodeByID db parentID with
  | none => CreateResult.errParentNotFound
  | some _ =>
    if nodeType ≠ "user" ∧ nodeType ≠ "llm" then CreateResult.errInvalidType nodeType
    else
      let node : Node :=
        { ID := freshID, Content := content, typ := nodeType,
          Parent := some parentID, Children := "[]", Model := model }
      let db2 := insertNode db node
      if setCurrentFails then CreateResult.okWarn node db2
      else CreateResult.ok node (setCurrentNode db2 node.ID)

/-- CreateChildNode: convenience variant defaulting the type to user. -/
def createChildNode (db : DB) (freshID content parentID : String)
    (model : Option String) (setCurrentFails : Bool) : CreateResult :=
  createChildNodeWithType db freshID content parentID "user" model setCurrentFails

/-- CreateLLMResponseNode: convenience variant with type llm and a
required model label. -/
def createLLMResponseNode (db : DB) (freshID parentID content model : String)
    (setCurrentFails : Bool) : CreateResult :=
  createChildNodeWithType db freshID content parentID "llm" (some model) setCurrentFails

/-- Insertion step of the sort standing in for ORDER BY id. -/
def insertByID (n : Node) : List Node → List Node
  | [] => [n]
  | m :: rest => if n.ID ≤ m.ID then n :: m :: rest else m :: insertByID n rest

/-- Stable sort by id, modelling the ORDER BY id clause of the child
and root queries. -/
def sortByID : List Node → List Node
  | [] => []
  | n :: rest => insertByID n (sortByID rest)

/-- GetDirectChildren: SELECT ... WHERE parent = ? ORDER BY id. -/
def getDirectChildren (db : DB) (parentID : String) : List Node :=
  sortByID (db.nodes.filter (fun n => decide (n.Parent = some parentID)))

/-- Child ids of a node in row order: SELECT id FROM Node WHERE
parent = ? (no ORDER BY), as issued inside collectNodeAndChildren. -/
def childIDsOf (db : DB) (nodeID : String) : List String :=
  (db.nodes.filter (fun n => decide (n.Parent = some nodeID))).map (·.ID)

/-- collectNodeAndChildren: the recursive helper of
GetNodeAndAllChildren, on a state pairing the accumulated nodes with
the visited ids.  Skips an already-visited id, marks the id visited,
skips a missing row (sql.ErrNoRows), appends the row, then recurses
over the child ids in row order; the for-loop over the children with
its early error return is the fold in the Option monad.  The fuel
argument makes the recursion structural; the Go recursion itself
terminates because the visited set grows, and any terminating run is
reproduced here by a large enough fuel. -/
def collectNodeAndChildren (db : DB) (fuel : Nat) (nodeID : String)
    (st : List Node × List String) : Option (List Node × List String) :=
  match fuel with
  | 0 => none
  | fuel' + 1 =>
    if nodeID ∈ st.2 then some st
    else
      match getNodeByID db nodeID with
      | none => some (st.1, nodeID :: st.2)
      | some node =>
        (childIDsOf db nodeID).foldlM
          (fun st2 childID => collectNodeAndChildren db fuel' childID st2)
          (st.1 ++ [node], nodeID :: st.2)

/-- GetNodeAndAllChildren: collects a node and all its descendants with
an empty accumulator and visited set. -/
def getNodeAndAllChildren (db : DB) (fuel : Nat) (nodeID : String) :
    Option (List Node) :=
  match collectNodeAndChildren db fuel nodeID ([], []) with
  | none => none
  | some (allNodes, _) => some allNodes

/-- GetParentPath loop body.  Each iteration checks the level cap,
fetches the current node (returning the chain so far with the failing
id on a NotFound), stops at a root, fetches and appends the parent,
and advances.  The error component carries the id that failed to
resolve, abstracting the wrapped Go error. -/
def getParentPathAux (db : DB) (fuel : Nat) (currentNodeID : String)
    (maxLevels levelsTraversed : Int) (parentChain : List Node) :
    Option (List Node × Option String) :=
  match fuel with
  | 0 => none
  | fuel' + 1 =>
    if maxLevels > 0 ∧ levelsTraversed ≥ maxLevels then some (parentChain, none)
    else
      match getNodeByID db currentNodeID with
      | none => some (parentChain, some currentNodeID)
      | some currentNode =>
        match currentNode.Parent with
        | none => some (parentChain, none)
        | some pid =>
          match getNodeByID db pid with
          | none => some (parentChain, some pid)
          | some parentNode =>
            getParentPathAux db fuel' pid maxLevels (levelsTraversed + 1)
              (parentChain ++ [parentNode])

/-- GetParentPath: ancestors of a node, nearest first; maxLevels at most
zero means unbounded. -/
def getParentPath (db : DB) (fuel : Nat) (nodeID : String) (maxLevels : Int) :
    Option (List Node × Option String) :=
  getParentPathAux db fuel nodeID maxLevels 0 []

/-- Outcome of GetConversationHistory: either the chain, or the id
whose lookup failed (the Go function returns a nil chain with a
wrapped error in that case). -/
inductive ConvResult where
  | ok (chain : List Node)
  | err (failedID : String)
deriving DecidableEq

/-- GetConversationHistory loop body: fetches the current node (a
NotFound aborts the whole call, the error carrying the failing id),
prepends it to the chain, stops at a root, advances to the parent. -/
def getConversationHistoryAux (db : DB) (fuel : Nat) (currentNodeID : String)
    (conversationChain : List Node) : Option ConvResult :=
  match fuel with
  | 0 => none
  | fuel' + 1 =>
    match getNodeByID db currentNodeID with
    | none => some (ConvResult.err currentNodeID)
    | some currentNode =>
      let chain := currentNode :: conversationChain
      match currentNode.Parent with
      | none => some (ConvResult.ok chain)
      | some pid => getConversationHistoryAux db fuel' pid chain

/-- GetConversationHistory: the chain from the root down to the given
node, in chronological order. -/
def getConversationHistory (db : DB) (fuel : Nat) (nodeID : String) :
    Option ConvResult :=
  getConversationHistoryAux db fuel nodeID []

/-- One DELETE FROM Node WHERE id = ? statement: removes every row with
the id and reports the number of removed rows as RowsAffected. -/
def deleteNodeRow (db : DB) (nodeID : String) : DB × Nat :=
  ({ db with nodes := db.nodes.filter (fun m => decide (¬ m.ID = nodeID)) },
   db.nodes.countP (fun m => decide (m.ID = nodeID)))

/-- The deletion loop of DeleteNodeAndAllChildren, issuing one DELETE
per node in the given order and accumulating the count. -/
def deleteNodes (db : DB) (toDelete : List Node) (deletedCount : Nat) : DB × Nat :=
  match toDelete with
  | [] => (db, deletedCount)
  | n :: rest =>
    let step := deleteNodeRow db n.ID
    deleteNodes step.1 rest (deletedCount + step.2)

/-- DeleteNodeAndAllChildren: collects the subtree, returns zero for an
empty collection, otherwise deletes the collected nodes in reverse
collection order (children first) and returns the new state with the
count of rows actually removed. -/
def deleteNodeAndAllChildren (db : DB) (fuel : Nat) (nodeID : String) :
    Option (DB × Nat) :=
  match getNodeAndAllChildren db fuel nodeID with
  | none => none
  | some nodesToDelete =>
    if nodesToDelete.isEmpty then some (db, 0)
    else some (deleteNodes db nodesToDelete.reverse 0)

/-- Outcome of the cherry-pick command, after the database handle and
the current pointer have been read.  The command exits with an error
message when the source is missing, when the source is the current
working node itself, or when the child creation returns any error
(including the pointer warning, which the command treats as a
failure); errCreate keeps the state the store was left in. -/
inductive CherryResult where
  | ok (node : Node) (db : DB)
  | noCurrentNode
  | errSourceNotFound
  | errSelfPick
  | errCreate (db : DB)
  | errCreateNoState
deriving DecidableEq

/-- cherryPickCmd core: reads the current working node, fetches the
source node, rejects picking the current node itself, then duplicates
the source content, type and model as a new child of the current node
via createChildNodeWithType. -/
def cherryPick (db : DB) (freshID sourceNodeID : String) (setCurrentFails : Bool) :
    CherryResult :=
  match db.currentNode with
  | none => CherryResult.noCurrentNode
  | some currentNodeID =>
    match getNodeByID db sourceNodeID with
    | none => CherryResult.errSourceNotFound
    | some sourceNode =>
      if sourceNodeID = currentNodeID then CherryResult.errSelfPick
      else
        match createChildNodeWithType db freshID sourceNode.Content currentNodeID
            sourceNode.typ sourceNode.Model setCurrentFails with
        | CreateResult.ok node db2 => CherryResult.ok node db2
        | CreateResult.okWarn _ db2 => CherryResult.errCreate db2
        | CreateResult.errParentNotFound => CherryResult.errCreateNoState
        | CreateResult.errInvalidType _ => CherryResult.errCreateNoState

/-- The table respects its PRIMARY KEY constraint: row ids are
pairwise distinct. -/
def NodupIDs (db : DB) : Prop := (db.nodes.map (·.ID)).Nodup

/-- The forest invariant of the spec, witnessed by a rank function:
every stored parent reference resolves, and a parent ranks strictly
below its child, so parent chains cannot cycle. -/
def WellFormed (db : DB) (rank : String → Nat) : Prop :=
  ∀ n ∈ db.nodes, ∀ pid, n.Parent = some pid →
    (∃ p, getNodeByID db pid = some p) ∧ rank pid < rank n.ID

/-- Downward reachability along stored parent links: b is in the
subtree rooted at a. -/
inductive Reach (db : DB) (a : String) : String → Prop where
  | refl : Reach db a a
  | step : ∀ {x : String} (r : Node), r ∈ db.nodes → r.Parent = some x →
      Reach db a x → Reach db a r.ID

/-- The full ancestor chain of a node: nearest ancestor first, each
element the resolved parent of the one before, ending at a root. -/
inductive AncChain (db : DB) : Node → List Node → Prop where
  | nil : ∀ n, n.Parent = none → AncChain db n []
  | cons : ∀ n p rest pid, n.Parent = some pid → getNodeByID db pid = some p →
      AncChain db p rest → AncChain db n (p :: rest)

/-- Sample row: a root node. -/
def nodeA : Node := ⟨"a", "hi", "user", none, "[]", none⟩

/-- Sample row: a child of nodeA. -/
def nodeB : Node := ⟨"b", "hello", "llm", some "a", "[]", some "m1"⟩

/-- Sample row: a child of nodeB. -/
def nodeC : Node := ⟨"c", "more", "user", some "b", "[]", none⟩

/-- Sample row: a second, independent root. -/
def nodeD : Node := ⟨"d", "other", "user", none, "[]", none⟩

/-- Sample database with the chain a - b - c and the extra root d; the
current pointer is at c. -/
def sampleDB : DB := ⟨[nodeA, nodeB, nodeC, nodeD], some "c"⟩

/-- Depth function witnessing the forest invariant of sampleDB. -/
def sampleRank : String → Nat :=
  fun x => if x = "b" then 1 else if x = "c" then 2 else 0

/-! Basic facts about row lookup, insertion and the child scan. -/

theorem getNodeByID_id_eq {db : DB} {x : String} {n : Node}
    (h : getNodeByID db x = some n) : n.ID = x := by
  have hp := List.find?_some h
  simpa using hp

theorem getNodeByID_mem {db : DB} {x : String} {n : Node}
    (h : getNodeByID db x = some n) : n ∈ db.nodes :=
  List.mem_of_find?_eq_some h

theorem getNodeByID_self {db : DB} {x : String} {n : Node}
    (h : getNodeByID db x = some n) : getNodeByID db n.ID = some n := by
  rw [getNodeByID_id_eq h]; exact h

theorem getNodeByID_eq_none {db : DB} {x : String}
    (h : getNodeByID db x = none) : ∀ n ∈ db.nodes, n.ID ≠ x := by
  intro n hn
  have hp := List.find?_eq_none.mp h n hn
  simpa using hp

theorem row_unique {db : DB} (hnd : NodupIDs db) {r₁ r₂ : Node}
    (h₁ : r₁ ∈ db.nodes) (h₂ : r₂ ∈ db.nodes) (hid : r₁.ID = r₂.ID) : r₁ = r₂ :=
  List.inj_on_of_nodup_map hnd h₁ h₂ hid

theorem getNodeByID_of_mem {db : DB} (hnd : NodupIDs db) {r : Node}
    (hr : r ∈ db.nodes) : getNodeByID db r.ID = some r := by
  cases h : getNodeByID db r.ID with
  | none => exact absurd rfl (getNodeByID_eq_none h r hr)
  | some m =>
    exact congrArg some (row_unique hnd (getNodeByID_mem h) hr (getNodeByID_id_eq h))

theorem find?_append {α : Type} (p : α → Bool) (l₁ l₂ : List α) :
    (l₁ ++ l₂).find? p = ((l₁.find? p).orElse fun _ => l₂.find? p) := by
  induction l₁ with
  | nil => simp
  | cons a l ih =>
    by_cases hp : p a <;> simp [List.find?, hp, ih]

theorem getNodeByID_insert_fresh {db : DB} {node : Node}
    (hfresh : ∀ n ∈ db.nodes, n.ID ≠ node.ID) :
    getNodeByID (insertNode db node) node.ID = some node := by
  have hnone : db.nodes.find? (fun n => decide (n.ID = node.ID)) = none := by
    apply List.find?_eq_none.mpr
    intro n hn
    simpa using hfresh n hn
  simp only [getNodeByID, insertNode]
  rw [find?_append, hnone]
  simp [List.find?]

theorem getNodeByID_insert_found {db : DB} {node r : Node} {x : String}
    (hx : getNodeByID db x = some r) :
    getNodeByID (insertNode db node) x = some r := by
  simp only [insertNode, getNodeByID] at hx ⊢
  simp [find?_append, hx]

theorem mem_childIDsOf {db : DB} {c x : String} :
    c ∈ childIDsOf db x ↔ ∃ r ∈ db.nodes, r.Parent = some x ∧ r.ID = c := by
  simp only [childIDsOf, List.mem_map, List.mem_filter, decide_eq_true_eq]
  constructor
  · rintro ⟨r, ⟨hr, hpar⟩, hid⟩; exact ⟨r, hr, hpar, hid⟩
  · rintro ⟨r, hr, hpar, hid⟩; exact ⟨r, ⟨hr, hpar⟩, hid⟩

theorem insertByID_perm (n : Node) (l : List Node) :
    (insertByID n l).Perm (n :: l) := by
  induction l with
  | nil => simp [insertByID]
  | cons m rest ih =>
    simp only [insertByID]
    by_cases h : n.ID ≤ m.ID
    · simp [h]
    · simp only [h, if_false]
      exact (ih.cons m).trans (List.Perm.swap n m rest)

theorem sortByID_perm (l : List Node) : (sortByID l).Perm l := by
  induction l with
  | nil => simp [sortByID]
  | cons n rest ih => exact (insertByID_perm n (sortByID rest)).trans (ih.cons n)

/-! Facts about the sample database, used to instantiate witnesses. -/

theorem sample_nodup : NodupIDs sampleDB := by
  show (sampleDB.nodes.map (·.ID)).Nodup
  decide

theorem sample_no_dangling :
    ∀ n ∈ sampleDB.nodes, ∀ pid, n.Parent = some pid →
      ∃ p, getNodeByID sampleDB pid = some p := by
  intro n hn pid hpid
  simp only [sampleDB, List.mem_cons, List.not_mem_nil, or_false] at hn
  rcases hn with rfl | rfl | rfl | rfl
  · exact absurd hpid (by simp [nodeA])
  · have : pid = "a" := by simpa [nodeB] using hpid.symm
    exact this ▸ ⟨nodeA, by decide⟩
  · have : pid = "b" := by simpa [nodeC] using hpid.symm
    exact this ▸ ⟨nodeB, by decide⟩
  · exact absurd hpid (by simp [nodeD])

theorem sample_wf : WellFormed sampleDB sampleRank := by
  intro n hn pid hpid
  simp only [sampleDB, List.mem_cons, List.not_mem_nil, or_false] at hn
  rcases hn with rfl | rfl | rfl | rfl
  · exact absurd hpid (by simp [nodeA])
  · have : pid = "a" := by simpa [nodeB] using hpid.symm
    subst this
    exact ⟨⟨nodeA, by decide⟩, by decide⟩
  · have : pid = "b" := by simpa [nodeC] using hpid.symm
    subst this
    exact ⟨⟨nodeB, by decide⟩, by decide⟩
  · exact absurd hpid (by simp [nodeD])

/-! Claim C10. -/

/-- C10: List direct children (GetDirectChildren) called with an id
that does not resolve to any node returns an empty list and no error
(the Go function has no NotFound path at all; its only error exits are
backend faults, absent from this model); it does not distinguish a
non-existent node from an existing leaf node.  The hypothesis that
stored parent references resolve is the spec's no-dangling-creation
invariant, needed because a dangling parent reference equal to the
probed id would otherwise surface as a child row. -/
theorem getDirectChildren_missing_parent_empty (db : DB) (id : String)
    (hnodangle : ∀ n ∈ db.nodes, ∀ pid, n.Parent = some pid →
      ∃ p, getNodeByID db pid = some p)
    (hid : getNodeByID db id = none) :
    getDirectChildren db id = [] ∧
    ∀ leafID, (∀ n ∈ db.nodes, n.Parent ≠ some leafID) →
      getDirectChildren db id = getDirectChildren db leafID := by
  have hfil : ∀ x, (∀ n ∈ db.nodes, n.Parent ≠ some x) →
      db.nodes.filter (fun n => decide (n.Parent = some x)) = [] := by
    intro x hx
    apply List.filter_eq_nil_iff.mpr
    intro n hn
    simpa using hx n hn
  have hnone : ∀ n ∈ db.nodes, n.Parent ≠ some id := by
    intro n hn hcon
    obtain ⟨p, hp⟩ := hnodangle n hn id hcon
    rw [hid] at hp
    exact Option.noConfusion hp
  constructor
  · rw [getDirectChildren, hfil id hnone]; rfl
  · intro leafID hleaf
    rw [getDirectChildren, getDirectChildren, hfil id hnone, hfil leafID hleaf]

/-- Witness for C10 at a concrete input: the id zz does not resolve in
sampleDB and its child listing is empty. -/
theorem getDirectChildren_missing_parent_empty_witness :
    getNodeByID sampleDB "zz" = none ∧ getDirectChildren sampleDB "zz" = [] :=
  ⟨by decide,
   (getDirectChildren_missing_parent_empty sampleDB "zz" sample_no_dangling
     (by decide)).1⟩

/-! Claim C5. -/

/-- C5: Create child node fails with NotFound when the parent id does
not resolve, fails with InvalidArgument when the kind is outside the
schema's enumeration (the source literals user and llm, which the spec
names user and assistant), and on success persists a new node with
parent equal to parentID and the supplied fresh unique id, then sets
the current pointer to the new node's id (when the pointer write does
not fail). -/
theorem createChildNodeWithType_spec (db : DB)
    (freshID content parentID nodeType : String) (model : Option String)
    (scf : Bool) :
    (getNodeByID db parentID = none →
      createChildNodeWithType db freshID content parentID nodeType model scf =
        CreateResult.errParentNotFound) ∧
    (∀ p, getNodeByID db parentID = some p → nodeType ≠ "user" → nodeType ≠ "llm" →
      createChildNodeWithType db freshID content parentID nodeType model scf =
        CreateResult.errInvalidType nodeType) ∧
    (∀ p, getNodeByID db parentID = some p → (nodeType = "user" ∨ nodeType = "llm") →
      ∃ node db2,
        (createChildNodeWithType db freshID content parentID nodeType model scf =
           CreateResult.ok node db2 ∨
         createChildNodeWithType db freshID content parentID nodeType model scf =
           CreateResult.okWarn node db2) ∧
        node.ID = freshID ∧ node.Parent = some parentID ∧ node.typ = nodeType ∧
        node.Content = content ∧ node.Model = model ∧
        db2.nodes = db.nodes ++ [node] ∧
        ((∀ n ∈ db.nodes, n.ID ≠ freshID) →
          getNodeByID db2 freshID = some node ∧ (NodupIDs db → NodupIDs db2)) ∧
        (scf = false →
          createChildNodeWithType db freshID content parentID nodeType model scf =
            CreateResult.ok node db2 ∧
          db2.currentNode = some node.ID)) := by
  refine ⟨?_, ?_, ?_⟩
  · intro h
    simp [createChildNodeWithType, h]
  · intro p hp h1 h2
    simp [createChildNodeWithType, hp, h1, h2]
  · intro p hp htyp
    have hcond : ¬(nodeType ≠ "user" ∧ nodeType ≠ "llm") := by
      rcases htyp with h | h <;> simp [h]
    have hfreshlem : ∀ (node : Node), node.ID = freshID →
        (∀ n ∈ db.nodes, n.ID ≠ freshID) →
        getNodeByID (insertNode db node) freshID = some node := by
      intro node hid hfresh
      have := @getNodeByID_insert_fresh db node
        (by intro n hn; rw [hid]; exact hfresh n hn)
      rwa [hid] at this
    have hnodup : ∀ (node : Node), node.ID = freshID →
        (∀ n ∈ db.nodes, n.ID ≠ freshID) → NodupIDs db →
        NodupIDs (insertNode db node) := by
      intro node hid hfresh hnd
      simp only [NodupIDs, insertNode, List.map_append, List.nodup_append]
      refine ⟨hnd, by simp, ?_⟩
      intro a ha hb
      simp only [List.map_cons, List.map_nil, List.mem_singleton] at hb
      obtain ⟨n, hn, rfl⟩ := List.mem_map.mp ha
      exact hfresh n hn (by rw [hb, hid])
    cases scf with
    | true =>
      refine ⟨⟨freshID, content, nodeType, some parentID, "[]", model⟩,
        insertNode db ⟨freshID, content, nodeType, some parentID, "[]", model⟩,
        Or.inr ?_, rfl, rfl, rfl, rfl, rfl, rfl, ?_, ?_⟩
      · simp [createChildNodeWithType, hp, hcond]
      · intro hfresh
        exact ⟨hfreshlem _ rfl hfresh, fun hnd => hnodup _ rfl hfresh hnd⟩
      · intro hfalse; exact absurd hfalse (by simp)
    | false =>
      refine ⟨⟨freshID, content, nodeType, some parentID, "[]", model⟩,
        setCurrentNode
          (insertNode db ⟨freshID, content, nodeType, some parentID, "[]", model⟩)
          freshID,
        Or.inl ?_, rfl, rfl, rfl, rfl, rfl, rfl, ?_, ?_⟩
      · simp [createChildNodeWithType, hp, hcond, setCurrentNode]
      · intro hfresh
        exact ⟨hfreshlem _ rfl hfresh, fun hnd => hnodup _ rfl hfresh hnd⟩
      · intro _
        refine ⟨by simp [createChildNodeWithType, hp, hcond, setCurrentNode], rfl⟩

/-- Witness for C5 at concrete inputs: the missing parent zz yields the
NotFound outcome, and an invalid kind yields InvalidArgument. -/
theorem createChildNodeWithType_spec_witness :
    (getNodeByID sampleDB "zz" = none ∧
      createChildNodeWithType sampleDB "f" "x" "zz" "user" none false =
        CreateResult.errParentNotFound) ∧
    createChildNodeWithType sampleDB "f" "x" "a" "weird" none false =
      CreateResult.errInvalidType "weird" :=
  ⟨⟨by decide,
    (createChildNodeWithType_spec sampleDB "f" "x" "zz" "user" none false).1
      (by decide)⟩,
   (createChildNodeWithType_spec sampleDB "f" "x" "a" "weird" none false).2.1
     nodeA (by decide) (by decide) (by decide)⟩

/-! Claim C6. -/

/-- C6: For both root-node and child-node creation, when the node
insert succeeds but the current-pointer update fails, the operation
returns the created node inside the okWarn outcome: the node stays in
the table (neither rolled back nor discarded), the pointer is left
unchanged, and okWarn is distinguishable from every plain ok outcome,
so the pointer error is not swallowed. -/
theorem create_pointer_failure_warns (db : DB) (freshID content : String)
    (model : Option String) :
    (∃ node db2,
      createRootNode db freshID content model true = CreateResult.okWarn node db2 ∧
      db2.nodes = db.nodes ++ [node] ∧ db2.currentNode = db.currentNode ∧
      node.ID = freshID ∧
      (∀ node2 db3, CreateResult.okWarn node db2 ≠ CreateResult.ok node2 db3) ∧
      ((∀ n ∈ db.nodes, n.ID ≠ freshID) → getNodeByID db2 freshID = some node)) ∧
    (∀ parentID nodeType p, getNodeByID db parentID = some p →
      (nodeType = "user" ∨ nodeType = "llm") →
      ∃ node db2,
        createChildNodeWithType db freshID content parentID nodeType model true =
          CreateResult.okWarn node db2 ∧
        db2.nodes = db.nodes ++ [node] ∧ db2.currentNode = db.currentNode ∧
        node.ID = freshID ∧
        (∀ node2 db3, CreateResult.okWarn node db2 ≠ CreateResult.ok node2 db3) ∧
        ((∀ n ∈ db.nodes, n.ID ≠ freshID) → getNodeByID db2 freshID = some node)) := by
  have hfreshlem : ∀ (node : Node), node.ID = freshID →
      (∀ n ∈ db.nodes, n.ID ≠ freshID) →
      getNodeByID (insertNode db node) freshID = some node := by
    intro node hid hfresh
    have := @getNodeByID_insert_fresh db node
      (by intro n hn; rw [hid]; exact hfresh n hn)
    rwa [hid] at this
  constructor
  · refine ⟨⟨freshID, content, "user", none, "[]", model⟩,
      insertNode db ⟨freshID, content, "user", none, "[]", model⟩,
      by simp [createRootNode], rfl, rfl, rfl,
      fun node2 db3 h => CreateResult.noConfusion h, ?_⟩
    intro hfresh
    exact hfreshlem _ rfl hfresh
  · intro parentID nodeType p hp htyp
    have hcond : ¬(nodeType ≠ "user" ∧ nodeType ≠ "llm") := by
      rcases htyp with h | h <;> simp [h]
    refine ⟨⟨freshID, content, nodeType, some parentID, "[]", model⟩,
      insertNode db ⟨freshID, content, nodeType, some parentID, "[]", model⟩,
      by simp [createChildNodeWithType, hp, hcond], rfl, rfl, rfl,
      fun node2 db3 h => CreateResult.noConfusion h, ?_⟩
    intro hfresh
    exact hfreshlem _ rfl hfresh

/-- Witness for C6 at a concrete input: explicit partial-failure
outcome of root creation over sampleDB. -/
theorem create_pointer_failure_warns_witness :
    createRootNode sampleDB "f" "x" none true =
      CreateResult.okWarn ⟨"f", "x", "user", none, "[]", none⟩
        ⟨[nodeA, nodeB, nodeC, nodeD, ⟨"f", "x", "user", none, "[]", none⟩],
          some "c"⟩ := by
  obtain ⟨node, db2, heq, hnodes, hcur, hid, -, -⟩ :=
    (create_pointer_failure_warns sampleDB "f" "x" none).1
  have : createRootNode sampleDB "f" "x" none true =
      CreateResult.okWarn ⟨"f", "x", "user", none, "[]", none⟩
        ⟨[nodeA, nodeB, nodeC, nodeD, ⟨"f", "x", "user", none, "[]", none⟩],
          some "c"⟩ := by decide
  exact this

/-! Claim C7. -/

/-- C7 as frozen is refuted by the self-pick guard of the cherry-pick
command: the source node c of sampleDB is resolvable and the current
working node (the destination parent) is also c, yet the command
refuses to produce any node, so the claimed outcome for every
resolvable source under a destination parent does not hold when the
source is the destination itself. -/
theorem cherryPick_self_counterexample :
    getNodeByID sampleDB "c" = some nodeC ∧
    sampleDB.currentNode = some "c" ∧
    cherryPick sampleDB "f" "c" false = CherryResult.errSelfPick := by
  refine ⟨by decide, by decide, by decide⟩

/-- C7 amended: cherry-pick of a resolvable source node s under
destination parent d (the current working node) with s different from
d produces a new node whose content, kind and model equal the
source's, whose id differs from the source's, and whose parent equals
d, while the source node is unchanged and still resolvable; when the
source id does not resolve, cherry-pick fails with NotFound.  The
kind-validity hypothesis restates the schema CHECK constraint on the
type column, and freshness of the generated uuid is a hypothesis
because the generator is modelled as an argument. -/
theorem cherryPick_spec (db : DB) (freshID sourceNodeID currentNodeID : String)
    (dst : Node)
    (hcur : db.currentNode = some currentNodeID)
    (hdst : getNodeByID db currentNodeID = some dst) :
    (getNodeByID db sourceNodeID = none →
      cherryPick db freshID sourceNodeID false = CherryResult.errSourceNotFound) ∧
    (∀ src, getNodeByID db sourceNodeID = some src →
      sourceNodeID ≠ currentNodeID →
      (src.typ = "user" ∨ src.typ = "llm") →
      (∀ n ∈ db.nodes, n.ID ≠ freshID) →
      ∃ node db2,
        cherryPick db freshID sourceNodeID false = CherryResult.ok node db2 ∧
        node.Content = src.Content ∧ node.typ = src.typ ∧ node.Model = src.Model ∧
        node.ID = freshID ∧ node.ID ≠ sourceNodeID ∧
        node.Parent = some currentNodeID ∧
        getNodeByID db2 sourceNodeID = some src ∧
        getNodeByID db2 node.ID = some node) := by
  constructor
  · intro h
    simp [cherryPick, hcur, h]
  · intro src hsrc hne htyp hfresh
    have hcond : ¬(src.typ ≠ "user" ∧ src.typ ≠ "llm") := by
      rcases htyp with h | h <;> simp [h]
    have hids : src.ID = sourceNodeID := getNodeByID_id_eq hsrc
    have hfreshne : freshID ≠ sourceNodeID := by
      intro h
      exact hfresh src (getNodeByID_mem hsrc) (by rw [hids, h])
    refine ⟨⟨freshID, src.Content, src.typ, some currentNodeID, "[]", src.Model⟩,
      setCurrentNode
        (insertNode db
          ⟨freshID, src.Content, src.typ, some currentNodeID, "[]", src.Model⟩)
        freshID,
      ?_, rfl, rfl, rfl, rfl, hfreshne, rfl, ?_, ?_⟩
    · simp [cherryPick, hcur, hsrc, hne, createChildNodeWithType, hdst, hcond,
        setCurrentNode]
    · exact getNodeByID_insert_found hsrc
    · have := @getNodeByID_insert_fresh db
        ⟨freshID, src.Content, src.typ, some currentNodeID, "[]", src.Model⟩
        (by intro n hn; exact hfresh n hn)
      exact this

/-- Witness for C7 at concrete inputs: picking node a of sampleDB under
the current node c succeeds and copies content, kind and model. -/
theorem cherryPick_spec_witness :
    cherryPick sampleDB "f" "a" false =
      CherryResult.ok ⟨"f", "hi", "user", some "c", "[]", none⟩
        ⟨[nodeA, nodeB, nodeC, nodeD, ⟨"f", "hi", "user", some "c", "[]", none⟩],
          some "f"⟩ ∧
    getNodeByID sampleDB "zz" = none ∧
    cherryPick sampleDB "f" "zz" false = CherryResult.errSourceNotFound := by
  refine ⟨?_, by decide, ?_⟩
  · obtain ⟨node, db2, heq, -⟩ :=
      (cherryPick_spec sampleDB "f" "a" "c" nodeC rfl (by decide)).2 nodeA
        (by decide) (by decide) (by decide) (by decide)
    have : cherryPick sampleDB "f" "a" false =
        CherryResult.ok ⟨"f", "hi", "user", some "c", "[]", none⟩
          ⟨[nodeA, nodeB, nodeC, nodeD, ⟨"f", "hi", "user", some "c", "[]", none⟩],
            some "f"⟩ := by decide
    exact this
  · exact (cherryPick_spec sampleDB "f" "zz" "c" nodeC rfl (by decide)).1 (by decide)

/-! Claim C9. -/

/-- C9: Every node record persisted or returned by the store carries
the constant Children string: both creation operations and the
cherry-pick command append one new row whose Children field is the
empty-list literal and leave every pre-existing row byte-for-byte
unchanged (so no parent's stored children column is ever updated), and
cascading deletion only removes rows, so the constant-Children
invariant of the table is preserved by all of them and the children
relationship is observable only through each child's parent field. -/
theorem children_field_constant :
    (∀ db freshID content model scf node db2,
      (createRootNode db freshID content model scf = CreateResult.ok node db2 ∨
       createRootNode db freshID content model scf = CreateResult.okWarn node db2) →
      node.Children = "[]" ∧ db2.nodes = db.nodes ++ [node]) ∧
    (∀ db freshID content parentID nodeType model scf node db2,
      (createChildNodeWithType db freshID content parentID nodeType model scf =
         CreateResult.ok node db2 ∨
       createChildNodeWithType db freshID content parentID nodeType model scf =
         CreateResult.okWarn node db2) →
      node.Children = "[]" ∧ db2.nodes = db.nodes ++ [node]) ∧
    (∀ db freshID sourceNodeID scf node db2,
      cherryPick db freshID sourceNodeID scf = CherryResult.ok node db2 →
      node.Children = "[]" ∧ db2.nodes = db.nodes ++ [node]) ∧
    (∀ db fuel nodeID db2 cnt,
      deleteNodeAndAllChildren db fuel nodeID = some (db2, cnt) →
      ∀ n ∈ db2.nodes, n ∈ db.nodes) ∧
    (∀ db : DB, (∀ n ∈ db.nodes, n.Children = "[]") →
      ∀ freshID content model scf node db2,
        (createRootNode db freshID content model scf = CreateResult.ok node db2 ∨
         createRootNode db freshID content model scf = CreateResult.okWarn node db2) →
        ∀ m ∈ db2.nodes, m.Children = "[]") := by
  have hroot : ∀ db freshID content model scf node db2,
      (createRootNode db freshID content model scf = CreateResult.ok node db2 ∨
       createRootNode db freshID content model scf = CreateResult.okWarn node db2) →
      node.Children = "[]" ∧ db2.nodes = db.nodes ++ [node] := by
    intro db freshID content model scf node db2 h
    cases scf with
    | false =>
      rcases h with h | h
      · simp only [createRootNode, Bool.false_eq_true, if_false,
          CreateResult.ok.injEq] at h
        obtain ⟨rfl, rfl⟩ := h
        exact ⟨rfl, rfl⟩
      · simp [createRootNode] at h
    | true =>
      rcases h with h | h
      · simp [createRootNode] at h
      · simp only [createRootNode, if_true, CreateResult.okWarn.injEq] at h
        obtain ⟨rfl, rfl⟩ := h
        exact ⟨rfl, rfl⟩
  have hchild : ∀ db freshID content parentID nodeType model scf node db2,
      (createChildNodeWithType db freshID content parentID nodeType model scf =
         CreateResult.ok node db2 ∨
       createChildNodeWithType db freshID content parentID nodeType model scf =
         CreateResult.okWarn node db2) →
      node.Children = "[]" ∧ db2.nodes = db.nodes ++ [node] := by
    intro db freshID content parentID nodeType model scf node db2 h
    cases hp : getNodeByID db parentID with
    | none =>
      rcases h with h | h <;> simp only [createChildNodeWithType, hp] at h <;>
        cases h
    | some p =>
      by_cases hc : nodeType ≠ "user" ∧ nodeType ≠ "llm"
      · rcases h with h | h <;> simp only [createChildNodeWithType, hp] at h <;>
          rw [if_pos hc] at h <;> cases h
      · cases scf with
        | false =>
          rcases h with h | h <;> simp only [createChildNodeWithType, hp] at h <;>
            rw [if_neg hc, if_neg Bool.false_ne_true] at h
          · obtain ⟨rfl, rfl⟩ := CreateResult.ok.inj h
            exact ⟨rfl, rfl⟩
          · cases h
        | true =>
          rcases h with h | h <;> simp only [createChildNodeWithType, hp] at h <;>
            rw [if_neg hc] at h <;> simp only [if_true] at h
          · cases h
          · obtain ⟨rfl, rfl⟩ := CreateResult.okWarn.inj h
            exact ⟨rfl, rfl⟩
  refine ⟨hroot, hchild, ?_, ?_, ?_⟩
  · intro db freshID sourceNodeID scf node db2 h
    cases hcur : db.currentNode with
    | none => simp only [cherryPick, hcur] at h; cases h
    | some currentNodeID =>
      cases hsrc : getNodeByID db sourceNodeID with
      | none => simp only [cherryPick, hcur, hsrc] at h; cases h
      | some src =>
        simp only [cherryPick, hcur, hsrc] at h
        by_cases hself : sourceNodeID = currentNodeID
        · rw [if_pos hself] at h; cases h
        · rw [if_neg hself] at h
          cases hcre : createChildNodeWithType db freshID src.Content currentNodeID
              src.typ src.Model scf with
          | ok node3 db3 =>
            rw [hcre] at h
            obtain ⟨rfl, rfl⟩ := CherryResult.ok.inj h
            exact hchild db freshID src.Content currentNodeID src.typ src.Model scf
              node3 db3 (Or.inl hcre)
          | okWarn node3 db3 => simp only [hcre] at h; cases h
          | errParentNotFound => simp only [hcre] at h; cases h
          | errInvalidType t => simp only [hcre] at h; cases h
  · intro db fuel nodeID db2 cnt h
    have hdel : ∀ (toDelete : List Node) (d : DB) (c : Nat),
        ∀ n ∈ (deleteNodes d toDelete c).1.nodes, n ∈ d.nodes := by
      intro toDelete
      induction toDelete with
      | nil => intro d c n hn; exact hn
      | cons m rest ih =>
        intro d c n hn
        simp only [deleteNodes] at hn
        exact List.mem_of_mem_filter (ih _ _ n hn)
    cases hcol : getNodeAndAllChildren db fuel nodeID with
    | none =>
      simp only [deleteNodeAndAllChildren, hcol] at h
      cases h
    | some l =>
      simp only [deleteNodeAndAllChildren, hcol] at h
      by_cases hl : l.isEmpty = true
      · rw [if_pos hl] at h
        have h2 := Option.some.inj h
        have hdb : db = db2 := congrArg Prod.fst h2
        intro n hn
        rw [← hdb] at hn
        exact hn
      · rw [if_neg hl] at h
        have h2 := Option.some.inj h
        have hdb : (deleteNodes db l.reverse 0).1 = db2 := congrArg Prod.fst h2
        intro n hn
        rw [← hdb] at hn
        exact hdel l.reverse db 0 n hn
  · intro db hinv freshID content model scf node db2 h m hm
    obtain ⟨hch, hnodes⟩ := hroot db freshID content model scf node db2 h
    rw [hnodes] at hm
    rcases List.mem_append.mp hm with hm | hm
    · exact hinv m hm
    · rw [List.mem_singleton.mp hm]; exact hch

/-! Lemmas about the two parent-chain walks, for claims C1 and C2. -/

theorem getParentPathAux_extends {db : DB} :
    ∀ (fuel : Nat) (id : String) (ml lt : Int) (acc res : List Node)
      (e : Option String),
      getParentPathAux db fuel id ml lt acc = some (res, e) →
      ∃ ext, res = acc ++ ext := by
  intro fuel
  induction fuel with
  | zero =>
    intro id ml lt acc res e h
    simp [getParentPathAux] at h
  | succ fuel ih =>
    intro id ml lt acc res e h
    simp only [getParentPathAux] at h
    split at h
    · obtain ⟨h1, -⟩ := Prod.mk.inj (Option.some.inj h)
      exact ⟨[], by rw [← h1]; simp⟩
    · split at h
      · obtain ⟨h1, -⟩ := Prod.mk.inj (Option.some.inj h)
        exact ⟨[], by rw [← h1]; simp⟩
      · split at h
        · obtain ⟨h1, -⟩ := Prod.mk.inj (Option.some.inj h)
          exact ⟨[], by rw [← h1]; simp⟩
        · split at h
          · obtain ⟨h1, -⟩ := Prod.mk.inj (Option.some.inj h)
            exact ⟨[], by rw [← h1]; simp⟩
          · next par hpid =>
            obtain ⟨ext, hext⟩ := ih _ ml (lt + 1) (acc ++ [par]) res e h
            exact ⟨par :: ext, by rw [hext]; simp⟩

theorem getParentPathAux_unbounded_congr {db : DB} :
    ∀ (fuel : Nat) (id : String) (ml ml2 lt lt2 : Int) (acc : List Node),
      ml ≤ 0 → ml2 ≤ 0 →
      getParentPathAux db fuel id ml lt acc =
        getParentPathAux db fuel id ml2 lt2 acc := by
  intro fuel
  induction fuel with
  | zero => intro id ml ml2 lt lt2 acc h1 h2; rfl
  | succ fuel ih =>
    intro id ml ml2 lt lt2 acc h1 h2
    simp only [getParentPathAux]
    rw [if_neg (by omega : ¬(ml > 0 ∧ lt ≥ ml)),
      if_neg (by omega : ¬(ml2 > 0 ∧ lt2 ≥ ml2))]
    cases hid : getNodeByID db id with
    | none => simp only [hid]
    | some cur =>
      simp only [hid]
      cases hpar : cur.Parent with
      | none => simp only [hpar]
      | some pid =>
        simp only [hpar]
        cases hpid : getNodeByID db pid with
        | none => simp only [hpid]
        | some par =>
          simp only [hpid]
          exact ih pid ml ml2 (lt + 1) (lt2 + 1) (acc ++ [par]) h1 h2

theorem historyAux_parentPath {db : DB} :
    ∀ (fuel : Nat) (id : String) (acc h : List Node),
      getConversationHistoryAux db fuel id acc = some (ConvResult.ok h) →
      ∃ n rest, getNodeByID db id = some n ∧ h = rest.reverse ++ n :: acc ∧
        ∀ (ml lt : Int) (acc2 : List Node), ml ≤ 0 →
          getParentPathAux db fuel id ml lt acc2 = some (acc2 ++ rest, none) := by
  intro fuel
  induction fuel with
  | zero =>
    intro id acc h hh
    simp [getConversationHistoryAux] at hh
  | succ fuel ih =>
    intro id acc h hh
    simp only [getConversationHistoryAux] at hh
    split at hh
    · cases hh
    · next cur hid =>
      split at hh
      · next hpar =>
        have hchain := ConvResult.ok.inj (Option.some.inj hh)
        refine ⟨cur, [], hid, by rw [← hchain]; simp, ?_⟩
        intro ml lt acc2 hml
        simp only [getParentPathAux, hid, hpar]
        rw [if_neg (by omega : ¬(ml > 0 ∧ lt ≥ ml))]
        simp
      · next pid hpar =>
        obtain ⟨p, rest, hp, hh2, hpath⟩ := ih pid (cur :: acc) h hh
        refine ⟨cur, p :: rest, hid, by rw [hh2]; simp, ?_⟩
        intro ml lt acc2 hml
        simp only [getParentPathAux, hid, hpar, hp]
        rw [if_neg (by omega : ¬(ml > 0 ∧ lt ≥ ml))]
        rw [hpath ml (lt + 1) (acc2 ++ [p]) hml]
        simp

/-! Claim C1. -/

/-- C1: For every node whose whole parent chain resolves (the
conversation-history walk succeeds), GetConversationHistory includes
the node itself and returns the chain in root-to-leaf order: its
reverse is the node followed by the unbounded GetParentPath ancestor
chain, for every maxLevels at most zero. -/
theorem conversationHistory_reverse_spec (db : DB) (fuel : Nat) (id : String)
    (h : List Node)
    (hh : getConversationHistory db fuel id = some (ConvResult.ok h)) :
    ∃ n chain, getNodeByID db id = some n ∧ h.reverse = n :: chain ∧
      ∀ ml : Int, ml ≤ 0 → getParentPath db fuel id ml = some (chain, none) := by
  obtain ⟨n, rest, hn, hh2, hpath⟩ := historyAux_parentPath fuel id [] h hh
  refine ⟨n, rest, hn, ?_, ?_⟩
  · rw [hh2]; simp
  · intro ml hml
    have := hpath ml 0 [] hml
    simpa [getParentPath] using this

/-- Witness for C1 at a concrete input: the history of node c in
sampleDB reversed is c, b, a, matching the unbounded ancestor walk. -/
theorem conversationHistory_reverse_spec_witness :
    getConversationHistory sampleDB 10 "c" =
      some (ConvResult.ok [nodeA, nodeB, nodeC]) ∧
    (∃ n chain, getNodeByID sampleDB "c" = some n ∧
      [nodeA, nodeB, nodeC].reverse = n :: chain ∧
      ∀ ml : Int, ml ≤ 0 → getParentPath sampleDB 10 "c" ml = some (chain, none)) :=
  ⟨by decide,
   conversationHistory_reverse_spec sampleDB 10 "c" [nodeA, nodeB, nodeC]
     (by decide)⟩

/-! Claim C2. -/

theorem getParentPathAux_ancChain {db : DB} :
    ∀ (fuel : Nat) (id : String) (lt : Int) (acc res : List Node),
      getParentPathAux db fuel id 0 lt acc = some (res, none) →
      ∀ n, getNodeByID db id = some n →
        ∃ chain, res = acc ++ chain ∧ AncChain db n chain := by
  intro fuel
  induction fuel with
  | zero =>
    intro id lt acc res h n hn
    simp [getParentPathAux] at h
  | succ fuel ih =>
    intro id lt acc res h n hn
    simp only [getParentPathAux, hn] at h
    rw [if_neg (by omega : ¬((0 : Int) > 0 ∧ lt ≥ 0))] at h
    split at h
    · next hpar =>
      obtain ⟨h1, -⟩ := Prod.mk.inj (Option.some.inj h)
      exact ⟨[], by rw [← h1]; simp, AncChain.nil n hpar⟩
    · next pid hpar =>
      split at h
      · obtain ⟨-, h2⟩ := Prod.mk.inj (Option.some.inj h)
        cases h2
      · next p hpid =>
        obtain ⟨chain, hres, hchain⟩ :=
          ih pid (lt + 1) (acc ++ [p]) res h p hpid
        exact ⟨p :: chain, by rw [hres]; simp,
          AncChain.cons n p chain pid hpar hpid hchain⟩

theorem getParentPathAux_bounded_take {db : DB} :
    ∀ (fuel : Nat) (id : String) (acc chain : List Node) (ml lt : Int),
      0 < ml → lt ≤ ml →
      getParentPathAux db fuel id 0 0 acc = some (acc ++ chain, none) →
      getParentPathAux db fuel id ml lt acc =
        some (acc ++ chain.take (ml - lt).toNat, none) := by
  intro fuel
  induction fuel with
  | zero =>
    intro id acc chain ml lt hml hlt h
    simp [getParentPathAux] at h
  | succ fuel ih =>
    intro id acc chain ml lt hml hlt h
    simp only [getParentPathAux] at h
    rw [if_neg (by omega : ¬((0 : Int) > 0 ∧ (0 : Int) ≥ 0))] at h
    by_cases hcap : lt ≥ ml
    · simp only [getParentPathAux]
      rw [if_pos ⟨hml, hcap⟩, (by omega : (ml - lt).toNat = 0)]
      simp
    · split at h
      · next hid =>
        obtain ⟨-, h2⟩ := Prod.mk.inj (Option.some.inj h)
        cases h2
      · next cur hid =>
        split at h
        · next hpar =>
          obtain ⟨h1, -⟩ := Prod.mk.inj (Option.some.inj h)
          have hch : chain = [] := by
            have hx : acc ++ [] = acc ++ chain := by simpa using h1
            exact (List.append_cancel_left hx).symm
          simp only [getParentPathAux, hid, hpar]
          rw [if_neg (by omega : ¬(ml > 0 ∧ lt ≥ ml)), hch]
          simp
        · next pid hpar =>
          split at h
          · obtain ⟨-, h2⟩ := Prod.mk.inj (Option.some.inj h)
            cases h2
          · next par hpid =>
            rw [getParentPathAux_unbounded_congr fuel pid 0 0 (0 + 1) 0
              (acc ++ [par]) (by omega) (by omega)] at h
            obtain ⟨ext, hext⟩ :=
              getParentPathAux_extends fuel pid 0 0 (acc ++ [par]) _ _ h
            have hch : chain = par :: ext := by
              have hx : acc ++ chain = acc ++ (par :: ext) := by
                simpa [List.append_assoc] using hext
              exact List.append_cancel_left hx
            have hrec := ih pid (acc ++ [par]) ext ml (lt + 1)
              hml (by omega) (by rw [hext] at h; exact h)
            simp only [getParentPathAux, hid, hpar, hpid]
            rw [if_neg (by omega : ¬(ml > 0 ∧ lt ≥ ml)), hrec, hch,
              (by omega : (ml - lt).toNat = (ml - (lt + 1)).toNat + 1),
              List.take_succ_cons]
            simp

/-- C2: For every existing node, a successful unbounded GetParentPath
run returns exactly the node's ancestor chain, nearest ancestor first
up to a root (the node itself excluded); every maxLevels at most zero
behaves identically (unbounded), and every positive maxLevels returns
the length-capped prefix of the unbounded chain, stopping early even
when the root has not been reached. -/
theorem getParentPath_spec (db : DB) (fuel : Nat) (id : String) (n : Node)
    (chain : List Node)
    (hn : getNodeByID db id = some n)
    (h0 : getParentPath db fuel id 0 = some (chain, none)) :
    AncChain db n chain ∧
    (∀ ml : Int, ml ≤ 0 → getParentPath db fuel id ml = some (chain, none)) ∧
    (∀ ml : Int, 0 < ml →
      getParentPath db fuel id ml = some (chain.take ml.toNat, none) ∧
      (chain.take ml.toNat).length ≤ ml.toNat ∧
      chain.take ml.toNat <+: chain) := by
  refine ⟨?_, ?_, ?_⟩
  · obtain ⟨chain2, hres, hchain⟩ :=
      getParentPathAux_ancChain fuel id 0 [] chain h0 n hn
    simpa [hres] using hchain
  · intro ml hml
    rw [getParentPath,
      getParentPathAux_unbounded_congr fuel id ml 0 0 0 [] hml (by omega)]
    exact h0
  · intro ml hml
    have := getParentPathAux_bounded_take fuel id [] chain ml 0 hml (by omega) h0
    refine ⟨?_, ?_, ⟨chain.drop ml.toNat, List.take_append_drop _ chain⟩⟩
    · rw [getParentPath]
      simpa using this
    · exact List.length_take_le ml.toNat chain

/-- Witness for C2 at a concrete input: the ancestors of node c in
sampleDB are b then a; the level-1 walk returns just b. -/
theorem getParentPath_spec_witness :
    getNodeByID sampleDB "c" = some nodeC ∧
    getParentPath sampleDB 10 "c" 0 = some ([nodeB, nodeA], none) ∧
    (AncChain sampleDB nodeC [nodeB, nodeA] ∧
     (∀ ml : Int, ml ≤ 0 →
       getParentPath sampleDB 10 "c" ml = some ([nodeB, nodeA], none)) ∧
     (∀ ml : Int, 0 < ml →
       getParentPath sampleDB 10 "c" ml =
         some ([nodeB, nodeA].take ml.toNat, none) ∧
       ([nodeB, nodeA].take ml.toNat).length ≤ ml.toNat ∧
       [nodeB, nodeA].take ml.toNat <+: [nodeB, nodeA])) :=
  ⟨by decide, by decide,
   getParentPath_spec sampleDB 10 "c" nodeC [nodeB, nodeA] (by decide) (by decide)⟩

/-! Reachability facts used by the subtree-collection claims. -/

theorem reach_trans {db : DB} {a b x : String}
    (h1 : Reach db a b) (h2 : Reach db b x) : Reach db a x := by
  induction h2 with
  | refl => exact h1
  | step r hr hpar _ ih => exact Reach.step r hr hpar ih

theorem reach_child {db : DB} {a c : String} {r : Node}
    (hr : r ∈ db.nodes) (hid : r.ID = c) (hpar : r.Parent = some a) :
    Reach db a c := by
  rw [← hid]
  exact Reach.step r hr hpar Reach.refl

theorem reach_rank {db : DB} {rank : String → Nat}
    (hwf : WellFormed db rank) {a x : String} (h : Reach db a x) :
    rank a ≤ rank x := by
  induction h with
  | refl => exact le_rfl
  | step r hr hpar _ ih =>
    have := (hwf r hr _ hpar).2
    omega

theorem reach_inv {db : DB} {b y : String} (h : Reach db b y) :
    y = b ∨ ∃ r ∈ db.nodes, r.ID = y ∧ ∃ pp, r.Parent = some pp ∧ Reach db b pp := by
  cases h with
  | refl => exact Or.inl rfl
  | step r hr hpar hre => exact Or.inr ⟨r, hr, rfl, _, hpar, hre⟩

theorem reach_comparable {db : DB} (hnd : NodupIDs db) {a b x : String}
    (h1 : Reach db a x) (h2 : Reach db b x) :
    Reach db a b ∨ Reach db b a := by
  induction h1 with
  | refl => exact Or.inr h2
  | step r hr hpar hre ih =>
    rcases reach_inv h2 with heq | ⟨r2, hr2, hid2, pp, hpar2, hre2⟩
    · exact Or.inl (heq ▸ Reach.step r hr hpar hre)
    · have hrr : r2 = r := row_unique hnd hr2 hr hid2
      subst hrr
      rw [hpar] at hpar2
      rw [← Option.some.inj hpar2] at hre2
      exact ih hre2

theorem reach_sibling_absurd {db : DB} {rank : String → Nat}
    (hwf : WellFormed db rank) (hnd : NodupIDs db)
    {c1 c2 pp : String} {r1 r2 : Node}
    (h1 : getNodeByID db c1 = some r1) (hp1 : r1.Parent = some pp)
    (h2 : getNodeByID db c2 = some r2) (hp2 : r2.Parent = some pp)
    (hne : c1 ≠ c2) (hcc : Reach db c1 c2) : False := by
  rcases reach_inv hcc with heq | ⟨r, hr, hid, pp2, hpar, hre⟩
  · exact hne heq.symm
  · have hrr : r = r2 := by
      apply row_unique hnd hr (getNodeByID_mem h2)
      rw [getNodeByID_id_eq h2]
      exact hid
    subst hrr
    rw [hp2] at hpar
    rw [← Option.some.inj hpar] at hre
    have hle := reach_rank hwf hre
    have hlt := (hwf r1 (getNodeByID_mem h1) pp hp1).2
    rw [getNodeByID_id_eq h1] at hlt
    omega

theorem sibling_disjoint {db : DB} {rank : String → Nat}
    (hwf : WellFormed db rank) (hnd : NodupIDs db)
    {c1 c2 pp x : String} {r1 r2 : Node}
    (h1 : getNodeByID db c1 = some r1) (hp1 : r1.Parent = some pp)
    (h2 : getNodeByID db c2 = some r2) (hp2 : r2.Parent = some pp)
    (hne : c1 ≠ c2) (hx1 : Reach db c1 x) (hx2 : Reach db c2 x) : False := by
  rcases reach_comparable hnd hx1 hx2 with hcc | hcc
  · exact reach_sibling_absurd hwf hnd h1 hp1 h2 hp2 hne hcc
  · exact reach_sibling_absurd hwf hnd h2 hp2 h1 hp1 (Ne.symm hne) hcc

theorem childIDsOf_nodup {db : DB} (hnd : NodupIDs db) (x : String) :
    (childIDsOf db x).Nodup :=
  List.Nodup.sublist (List.Sublist.map _ (List.filter_sublist _)) hnd

theorem childIDsOf_row {db : DB} (hnd : NodupIDs db) {x c : String}
    (hc : c ∈ childIDsOf db x) :
    ∃ r, getNodeByID db c = some r ∧ r.Parent = some x := by
  obtain ⟨r, hr, hpar, hid⟩ := mem_childIDsOf.mp hc
  exact ⟨r, by rw [← hid]; exact getNodeByID_of_mem hnd hr, hpar⟩

/-! The structural invariant of collectNodeAndChildren: the run
appends a block of freshly collected rows, records exactly the newly
seen ids in the visited list, never revisits, and marks every child id
of every collected row as visited. -/

theorem collect_shape {db : DB} : ∀ fuel : Nat,
    (∀ (nodeID : String) (st res : List Node × List String),
      collectNodeAndChildren db fuel nodeID st = some res →
      ∃ new delta, res.1 = st.1 ++ new ∧ res.2 = delta ++ st.2 ∧
        (∀ x ∈ delta, x ∉ st.2) ∧ delta.Nodup ∧
        (∀ m ∈ new, getNodeByID db m.ID = some m ∧ m.ID ∈ delta) ∧
        (∀ x ∈ delta, (∃ m ∈ new, m.ID = x) ∨ getNodeByID db x = none) ∧
        (new.map (·.ID)).Nodup ∧
        (∀ m ∈ new, ∀ cid ∈ childIDsOf db m.ID, cid ∈ res.2) ∧
        nodeID ∈ res.2) ∧
    (∀ (cs : List String) (st res : List Node × List String),
      cs.foldlM (fun st2 c => collectNodeAndChildren db fuel c st2) st = some res →
      ∃ new delta, res.1 = st.1 ++ new ∧ res.2 = delta ++ st.2 ∧
        (∀ x ∈ delta, x ∉ st.2) ∧ delta.Nodup ∧
        (∀ m ∈ new, getNodeByID db m.ID = some m ∧ m.ID ∈ delta) ∧
        (∀ x ∈ delta, (∃ m ∈ new, m.ID = x) ∨ getNodeByID db x = none) ∧
        (new.map (·.ID)).Nodup ∧
        (∀ m ∈ new, ∀ cid ∈ childIDsOf db m.ID, cid ∈ res.2) ∧
        (∀ c ∈ cs, c ∈ res.2)) := by
  intro fuel
  induction fuel with
  | zero =>
    constructor
    · intro nodeID st res h
      simp [collectNodeAndChildren] at h
    · intro cs st res h
      cases cs with
      | nil =>
        simp only [List.foldlM_nil] at h
        obtain rfl : st = res := Option.some.inj h
        exact ⟨[], [], by simp, by simp, by simp, List.nodup_nil, by simp,
          by simp, by simp, by simp, by simp⟩
      | cons c cs =>
        rw [List.foldlM_cons] at h
        simp [collectNodeAndChildren] at h
  | succ fuel ih =>
    have hA : ∀ (nodeID : String) (st res : List Node × List String),
        collectNodeAndChildren db (fuel + 1) nodeID st = some res →
        ∃ new delta, res.1 = st.1 ++ new ∧ res.2 = delta ++ st.2 ∧
          (∀ x ∈ delta, x ∉ st.2) ∧ delta.Nodup ∧
          (∀ m ∈ new, getNodeByID db m.ID = some m ∧ m.ID ∈ delta) ∧
          (∀ x ∈ delta, (∃ m ∈ new, m.ID = x) ∨ getNodeByID db x = none) ∧
          (new.map (·.ID)).Nodup ∧
          (∀ m ∈ new, ∀ cid ∈ childIDsOf db m.ID, cid ∈ res.2) ∧
          nodeID ∈ res.2 := by
      intro nodeID st res h
      simp only [collectNodeAndChildren] at h
      split at h
      · next hvis =>
        obtain rfl : st = res := Option.some.inj h
        exact ⟨[], [], by simp, by simp, by simp, List.nodup_nil, by simp,
          by simp, by simp, by simp, hvis⟩
      · next hvis =>
        split at h
        · next hnone =>
          obtain rfl : (st.1, nodeID :: st.2) = res := Option.some.inj h
          refine ⟨[], [nodeID], by simp, by simp, ?_, by simp, by simp, ?_,
            by simp, by simp, by simp⟩
          · intro x hx
            rw [List.mem_singleton.mp hx]
            exact hvis
          · intro x hx
            rw [List.mem_singleton.mp hx]
            exact Or.inr hnone
        · next node hsome =>
          obtain ⟨new2, delta2, hres1, hres2, hd2, hnd2, hrows2, hva2, hni2,
            hcv2, hcs2⟩ := ih.2 (childIDsOf db nodeID)
              (st.1 ++ [node], nodeID :: st.2) res h
          have hnodeid : node.ID = nodeID := getNodeByID_id_eq hsome
          have hnotin : nodeID ∉ delta2 := by
            intro hmem
            exact hd2 nodeID hmem (List.mem_cons_self nodeID st.2)
          refine ⟨node :: new2, delta2 ++ [nodeID], ?_, ?_, ?_, ?_, ?_, ?_,
            ?_, ?_, ?_⟩
          · rw [hres1]; simp
          · rw [hres2]; simp
          · intro x hx
            rcases List.mem_append.mp hx with hx | hx
            · intro hcon
              exact hd2 x hx (List.mem_cons_of_mem nodeID hcon)
            · rw [List.mem_singleton.mp hx]
              exact hvis
          · rw [List.nodup_append]
            exact ⟨hnd2, List.nodup_singleton nodeID, by
              intro x hx hx2
              rw [List.mem_singleton.mp hx2] at hx
              exact hnotin hx⟩
          · intro m hm
            rcases List.mem_cons.mp hm with rfl | hm
            · exact ⟨by rw [hnodeid]; exact hsome, by simp [hnodeid]⟩
            · obtain ⟨hrow, hmem⟩ := hrows2 m hm
              exact ⟨hrow, List.mem_append_left _ hmem⟩
          · intro x hx
            rcases List.mem_append.mp hx with hx | hx
            · rcases hva2 x hx with ⟨m, hm, hmx⟩ | hnone
              · exact Or.inl ⟨m, List.mem_cons_of_mem node hm, hmx⟩
              · exact Or.inr hnone
            · rw [List.mem_singleton.mp hx]
              exact Or.inl ⟨node, List.mem_cons_self node new2, hnodeid⟩
          · rw [List.map_cons, List.nodup_cons]
            constructor
            · intro hcon
              obtain ⟨m, hm, hmx⟩ := List.mem_map.mp hcon
              have := (hrows2 m hm).2
              rw [hmx, hnodeid] at this
              exact hnotin this
            · exact hni2
          · intro m hm
            rcases List.mem_cons.mp hm with rfl | hm
            · intro cid hcid
              rw [hnodeid] at hcid
              exact hcs2 cid hcid
            · exact hcv2 m hm
          · rw [hres2]
            exact List.mem_append_right _ (List.mem_cons_self nodeID st.2)
    refine ⟨hA, ?_⟩
    intro cs
    induction cs with
    | nil =>
      intro st res h
      simp only [List.foldlM_nil] at h
      obtain rfl : st = res := Option.some.inj h
      exact ⟨[], [], by simp, by simp, by simp, List.nodup_nil, by simp,
        by simp, by simp, by simp, by simp⟩
    | cons c cs ihcs =>
      intro st res h
      rw [List.foldlM_cons] at h
      cases hc : collectNodeAndChildren db (fuel + 1) c st with
      | none => rw [hc] at h; cases h
      | some st1 =>
        rw [hc] at h
        replace h : cs.foldlM
            (fun st2 c => collectNodeAndChildren db (fuel + 1) c st2) st1 =
            some res := h
        obtain ⟨new1, delta1, h1res1, h1res2, h1d, h1nd, h1rows, h1va, h1ni,
          h1cv, h1in⟩ := hA c st st1 hc
        obtain ⟨new2, delta2, h2res1, h2res2, h2d, h2nd, h2rows, h2va, h2ni,
          h2cv, h2cs⟩ := ihcs st1 res h
        have hst1sub : ∀ x ∈ st1.2, x ∈ res.2 := by
          intro x hx
          rw [h2res2]
          exact List.mem_append_right _ hx
        refine ⟨new1 ++ new2, delta2 ++ delta1, ?_, ?_, ?_, ?_, ?_, ?_, ?_,
          ?_, ?_⟩
        · rw [h2res1, h1res1]; simp
        · rw [h2res2, h1res2]; simp
        · intro x hx
          rcases List.mem_append.mp hx with hx | hx
          · intro hcon
            exact h2d x hx (by rw [h1res2]; exact List.mem_append_right _ hcon)
          · exact h1d x hx
        · rw [List.nodup_append]
          refine ⟨h2nd, h1nd, ?_⟩
          intro x hx hx2
          exact h2d x hx (by rw [h1res2]; exact List.mem_append_left _ hx2)
        · intro m hm
          rcases List.mem_append.mp hm with hm | hm
          · obtain ⟨hrow, hmem⟩ := h1rows m hm
            exact ⟨hrow, List.mem_append_right _ hmem⟩
          · obtain ⟨hrow, hmem⟩ := h2rows m hm
            exact ⟨hrow, List.mem_append_left _ hmem⟩
        · intro x hx
          rcases List.mem_append.mp hx with hx | hx
          · rcases h2va x hx with ⟨m, hm, hmx⟩ | hnone
            · exact Or.inl ⟨m, List.mem_append_right _ hm, hmx⟩
            · exact Or.inr hnone
          · rcases h1va x hx with ⟨m, hm, hmx⟩ | hnone
            · exact Or.inl ⟨m, List.mem_append_left _ hm, hmx⟩
            · exact Or.inr hnone
        · rw [List.map_append, List.nodup_append]
          refine ⟨h1ni, h2ni, ?_⟩
          intro x hx hx2
          obtain ⟨m1, hm1, hmx1⟩ := List.mem_map.mp hx
          obtain ⟨m2, hm2, hmx2⟩ := List.mem_map.mp hx2
          have hx1delta : x ∈ delta1 := hmx1 ▸ (h1rows m1 hm1).2
          have hx2delta : x ∈ delta2 := hmx2 ▸ (h2rows m2 hm2).2
          exact h2d x hx2delta
            (by rw [h1res2]; exact List.mem_append_left _ hx1delta)
        · intro m hm
          rcases List.mem_append.mp hm with hm | hm
          · intro cid hcid
            exact hst1sub cid (h1cv m hm cid hcid)
          · exact h2cv m hm
        · intro c2 hc2
          rcases List.mem_cons.mp hc2 with rfl | hc2
          · exact hst1sub c2 h1in
          · exact h2cs c2 hc2

/-! Every id the collection ever visits is reachable from the start
node along child edges. -/

theorem collect_reach {db : DB} : ∀ fuel : Nat,
    (∀ (nodeID : String) (st res : List Node × List String),
      collectNodeAndChildren db fuel nodeID st = some res →
      ∀ x ∈ res.2, x ∈ st.2 ∨ Reach db nodeID x) ∧
    (∀ (cs : List String) (st res : List Node × List String),
      cs.foldlM (fun st2 c => collectNodeAndChildren db fuel c st2) st = some res →
      ∀ x ∈ res.2, x ∈ st.2 ∨ ∃ c ∈ cs, Reach db c x) := by
  intro fuel
  induction fuel with
  | zero =>
    constructor
    · intro nodeID st res h
      simp [collectNodeAndChildren] at h
    · intro cs st res h
      cases cs with
      | nil =>
        simp only [List.foldlM_nil] at h
        obtain rfl : st = res := Option.some.inj h
        intro x hx
        exact Or.inl hx
      | cons c cs =>
        rw [List.foldlM_cons] at h
        simp [collectNodeAndChildren] at h
  | succ fuel ih =>
    have hA : ∀ (nodeID : String) (st res : List Node × List String),
        collectNodeAndChildren db (fuel + 1) nodeID st = some res →
        ∀ x ∈ res.2, x ∈ st.2 ∨ Reach db nodeID x := by
      intro nodeID st res h
      simp only [collectNodeAndChildren] at h
      split at h
      · next hvis =>
        obtain rfl : st = res := Option.some.inj h
        intro x hx
        exact Or.inl hx
      · next hvis =>
        split at h
        · next hnone =>
          obtain rfl : (st.1, nodeID :: st.2) = res := Option.some.inj h
          intro x hx
          rcases List.mem_cons.mp hx with rfl | hx
          · exact Or.inr Reach.refl
          · exact Or.inl hx
        · next node hsome =>
          intro x hx
          rcases ih.2 (childIDsOf db nodeID) (st.1 ++ [node], nodeID :: st.2)
            res h x hx with hx2 | ⟨c, hc, hre⟩
          · rcases List.mem_cons.mp hx2 with rfl | hx2
            · exact Or.inr Reach.refl
            · exact Or.inl hx2
          · obtain ⟨r, hr, hpar, hid⟩ := mem_childIDsOf.mp hc
            exact Or.inr (reach_trans (reach_child hr hid hpar) hre)
    refine ⟨hA, ?_⟩
    intro cs
    induction cs with
    | nil =>
      intro st res h
      simp only [List.foldlM_nil] at h
      obtain rfl : st = res := Option.some.inj h
      intro x hx
      exact Or.inl hx
    | cons c cs ihcs =>
      intro st res h
      rw [List.foldlM_cons] at h
      cases hc : collectNodeAndChildren db (fuel + 1) c st with
      | none => rw [hc] at h; cases h
      | some st1 =>
        rw [hc] at h
        replace h : cs.foldlM
            (fun st2 c => collectNodeAndChildren db (fuel + 1) c st2) st1 =
            some res := h
        intro x hx
        rcases ihcs st1 res h x hx with hx1 | ⟨c2, hc2, hre⟩
        · rcases hA c st st1 hc x hx1 with hx2 | hre
          · exact Or.inl hx2
          · exact Or.inr ⟨c, List.mem_cons_self c cs, hre⟩
        · exact Or.inr ⟨c2, List.mem_cons_of_mem c hc2, hre⟩

/-! Fuel monotonicity: a successful run is reproduced by any larger
fuel, hence results at different fuels agree. -/

theorem collect_fuel_mono {db : DB} : ∀ fuel : Nat,
    (∀ (nodeID : String) (st res : List Node × List String),
      collectNodeAndChildren db fuel nodeID st = some res →
      collectNodeAndChildren db (fuel + 1) nodeID st = some res) ∧
    (∀ (cs : List String) (st res : List Node × List String),
      cs.foldlM (fun st2 c => collectNodeAndChildren db fuel c st2) st = some res →
      cs.foldlM (fun st2 c => collectNodeAndChildren db (fuel + 1) c st2) st =
        some res) := by
  intro fuel
  induction fuel with
  | zero =>
    constructor
    · intro nodeID st res h
      simp [collectNodeAndChildren] at h
    · intro cs st res h
      cases cs with
      | nil => simpa using h
      | cons c cs =>
        rw [List.foldlM_cons] at h
        simp [collectNodeAndChildren] at h
  | succ fuel ih =>
    have hA : ∀ (nodeID : String) (st res : List Node × List String),
        collectNodeAndChildren db (fuel + 1) nodeID st = some res →
        collectNodeAndChildren db (fuel + 1 + 1) nodeID st = some res := by
      intro nodeID st res h
      simp only [collectNodeAndChildren] at h ⊢
      split at h
      · next hvis => rw [if_pos hvis]; exact h
      · next hvis =>
        rw [if_neg hvis]
        cases hsome : getNodeByID db nodeID with
        | none => simp only [hsome] at h ⊢; exact h
        | some node =>
          simp only [hsome] at h ⊢
          exact ih.2 (childIDsOf db nodeID) (st.1 ++ [node], nodeID :: st.2) res h
    refine ⟨hA, ?_⟩
    intro cs
    induction cs with
    | nil => intro st res h; simpa using h
    | cons c cs ihcs =>
      intro st res h
      rw [List.foldlM_cons] at h ⊢
      cases hc : collectNodeAndChildren db (fuel + 1) c st with
      | none => rw [hc] at h; cases h
      | some st1 =>
        rw [hc] at h
        rw [hA c st st1 hc]
        replace h : cs.foldlM
            (fun st2 c => collectNodeAndChildren db (fuel + 1) c st2) st1 =
            some res := h
        exact ihcs st1 res h

theorem collect_fuel_le {db : DB} {fuel fuel2 : Nat} (hle : fuel ≤ fuel2)
    {nodeID : String} {st res : List Node × List String}
    (h : collectNodeAndChildren db fuel nodeID st = some res) :
    collectNodeAndChildren db fuel2 nodeID st = some res := by
  induction hle with
  | refl => exact h
  | step hle2 ih =>
    exact (collect_fuel_mono _).1 _ _ _ ih

theorem getNodeAndAllChildren_fuel_le {db : DB} {fuel fuel2 : Nat}
    (hle : fuel ≤ fuel2) {nodeID : String} {l : List Node}
    (h : getNodeAndAllChildren db fuel nodeID = some l) :
    getNodeAndAllChildren db fuel2 nodeID = some l := by
  rw [getNodeAndAllChildren] at h ⊢
  cases hc : collectNodeAndChildren db fuel nodeID ([], []) with
  | none => rw [hc] at h; cases h
  | some st =>
    rw [hc] at h
    rw [collect_fuel_le hle hc]
    exact h

/-! Top-level corollaries of the collection invariants. -/

theorem getNodeAndAllChildren_split {db : DB} {fuel : Nat} {id : String}
    {l : List Node} (h : getNodeAndAllChildren db fuel id = some l) :
    ∃ vis, collectNodeAndChildren db fuel id ([], []) = some (l, vis) := by
  rw [getNodeAndAllChildren] at h
  cases hc : collectNodeAndChildren db fuel id ([], []) with
  | none => rw [hc] at h; cases h
  | some st =>
    rw [hc] at h
    obtain rfl : st.1 = l := by
      cases st
      exact Option.some.inj h
    exact ⟨st.2, by cases st; rfl⟩

theorem getNodeAndAllChildren_missing {db : DB} {fuel : Nat} {id : String}
    (hn : getNodeByID db id = none) (hf : 0 < fuel) :
    getNodeAndAllChildren db fuel id = some [] := by
  cases fuel with
  | zero => omega
  | succ fuel =>
    rw [getNodeAndAllChildren]
    simp only [collectNodeAndChildren, hn]
    rw [if_neg (by simp : ¬(id ∈ ([] : List String)))]

theorem getNodeAndAllChildren_head {db : DB} {fuel : Nat} {id : String}
    {n : Node} {l : List Node} (hn : getNodeByID db id = some n)
    (h : getNodeAndAllChildren db fuel id = some l) :
    ∃ rest, l = n :: rest := by
  obtain ⟨vis, hc⟩ := getNodeAndAllChildren_split h
  cases fuel with
  | zero => simp [collectNodeAndChildren] at hc
  | succ fuel =>
    simp only [collectNodeAndChildren, hn] at hc
    rw [if_neg (by simp : ¬(id ∈ ([] : List String)))] at hc
    obtain ⟨new, delta, hres1, -⟩ :=
      (collect_shape fuel).2 (childIDsOf db id) ([] ++ [n], id :: []) (l, vis) hc
    exact ⟨new, by simpa using hres1⟩

/-! Counting lemmas for the cascading deletion. -/

theorem countP_id_unique :
    ∀ (l : List Node) (x : String) (r : Node), (l.map (·.ID)).Nodup →
      r ∈ l → r.ID = x → l.countP (fun m => decide (m.ID = x)) = 1 := by
  intro l
  induction l with
  | nil => intro x r _ hr _; cases hr
  | cons a l ih =>
    intro x r hnd hr hrx
    rw [List.map_cons, List.nodup_cons] at hnd
    rw [List.countP_cons]
    rcases List.mem_cons.mp hr with rfl | hr2
    · have hpa : decide (r.ID = x) = true := by simp [hrx]
      rw [hpa]
      have hzero : l.countP (fun m => decide (m.ID = x)) = 0 := by
        apply List.countP_eq_zero.mpr
        intro m hm
        simp only [decide_eq_true_eq]
        intro hcon
        exact hnd.1 (List.mem_map.mpr ⟨m, hm, by rw [hcon, hrx]⟩)
      rw [hzero]
      simp
    · have hpa : decide (a.ID = x) = false := by
        simp only [decide_eq_false_iff_not]
        intro hcon
        exact hnd.1 (List.mem_map.mpr ⟨r, hr2, by rw [hrx, hcon]⟩)
      rw [hpa, ih x r hnd.2 hr2 hrx]
      simp

theorem deleteNodes_spec :
    ∀ (ns : List Node) (d : DB) (c : Nat),
      NodupIDs d → (∀ n ∈ ns, getNodeByID d n.ID = some n) →
      (ns.map (·.ID)).Nodup →
      (deleteNodes d ns c).2 = c + ns.length ∧
      (deleteNodes d ns c).1.nodes =
        d.nodes.filter (fun m => decide (m.ID ∉ ns.map (·.ID))) ∧
      (deleteNodes d ns c).1.currentNode = d.currentNode := by
  intro ns
  induction ns with
  | nil =>
    intro d c hnd hrows hids
    refine ⟨by simp [deleteNodes], ?_, by simp [deleteNodes]⟩
    simp only [deleteNodes]
    symm
    apply List.filter_eq_self.mpr
    intro a _
    simp
  | cons n ns ih =>
    intro d c hnd hrows hids
    have hnmem : n ∈ d.nodes := getNodeByID_mem (hrows n (List.mem_cons_self n ns))
    have hcnt : d.nodes.countP (fun m => decide (m.ID = n.ID)) = 1 :=
      countP_id_unique d.nodes n.ID n hnd hnmem rfl
    rw [List.map_cons, List.nodup_cons] at hids
    set d2 : DB :=
      { d with nodes := d.nodes.filter (fun m => decide (¬ m.ID = n.ID)) } with hd2
    have hnd2 : NodupIDs d2 :=
      List.Nodup.sublist (List.Sublist.map _ (List.filter_sublist _)) hnd
    have hrows2 : ∀ m ∈ ns, getNodeByID d2 m.ID = some m := by
      intro m hm
      have hmne : m.ID ≠ n.ID := by
        intro hcon
        exact hids.1 (List.mem_map.mpr ⟨m, hm, hcon⟩)
      have hmmem : m ∈ d2.nodes := by
        rw [hd2]
        exact List.mem_filter.mpr
          ⟨getNodeByID_mem (hrows m (List.mem_cons_of_mem n hm)), by
            simpa using hmne⟩
      exact getNodeByID_of_mem hnd2 hmmem
    obtain ⟨hcount, hnodes, hcur⟩ :=
      ih d2 (c + d.nodes.countP (fun m => decide (m.ID = n.ID))) hnd2 hrows2
        hids.2
    have hstep : deleteNodes d (n :: ns) c =
        deleteNodes d2 ns (c + d.nodes.countP (fun m => decide (m.ID = n.ID))) := by
      simp only [deleteNodes, deleteNodeRow]
    rw [hstep]
    refine ⟨?_, ?_, ?_⟩
    · rw [hcount, hcnt]
      simp [List.length_cons]
      omega
    · rw [hnodes, hd2]
      rw [List.filter_filter]
      apply List.filter_congr
      intro m _
      rw [← Bool.decide_and, decide_eq_decide]
      simp only [List.map_cons, List.mem_cons, not_or]
      tauto
    · rw [hcur]

/-! Claim C3. -/

/-- C3: A successful prune run deletes exactly the collected subtree:
the returned count equals the size of Collect subtree, afterwards the
probed id and every collected node fail to resolve, and pruning an id
that does not resolve succeeds with a count of zero leaving the store
unchanged. -/
theorem deleteNodeAndAllChildren_spec (db : DB) (fuel : Nat) (id : String)
    (db2 : DB) (cnt : Nat) (hnd : NodupIDs db)
    (h : deleteNodeAndAllChildren db fuel id = some (db2, cnt)) :
    (∃ l, getNodeAndAllChildren db fuel id = some l ∧ cnt = l.length ∧
      getNodeByID db2 id = none ∧ (∀ m ∈ l, getNodeByID db2 m.ID = none)) ∧
    (getNodeByID db id = none → cnt = 0 ∧ db2 = db) ∧
    (∀ (d : DB) (f : Nat) (x : String), getNodeByID d x = none → 0 < f →
      deleteNodeAndAllChildren d f x = some (d, 0)) := by
  have hmissing : ∀ (d : DB) (f : Nat) (x : String), getNodeByID d x = none →
      0 < f → deleteNodeAndAllChildren d f x = some (d, 0) := by
    intro d f x hx hf
    rw [deleteNodeAndAllChildren]
    simp only [getNodeAndAllChildren_missing hx hf]
    rfl
  cases hcol : getNodeAndAllChildren db fuel id with
  | none =>
    simp only [deleteNodeAndAllChildren, hcol] at h
    cases h
  | some l =>
    have hfpos : 0 < fuel := by
      cases fuel with
      | zero => simp [getNodeAndAllChildren, collectNodeAndChildren] at hcol
      | succ fuel => omega
    obtain ⟨vis, hc⟩ := getNodeAndAllChildren_split hcol
    obtain ⟨new, delta, hres1, hres2, -, -, hrows, -, hni, -, -⟩ :=
      (collect_shape fuel).1 id ([], []) (l, vis) hc
    simp only at hres1 hres2
    rw [List.nil_append] at hres1
    subst hres1
    simp only [deleteNodeAndAllChildren, hcol] at h
    by_cases hl : l.isEmpty = true
    · rw [if_pos hl] at h
      have hpair := Option.some.inj h
      have hdb : db = db2 := congrArg Prod.fst hpair
      have hcnt : (0 : Nat) = cnt := congrArg Prod.snd hpair
      have hlnil : l = [] := List.isEmpty_iff.mp hl
      have hidnone : getNodeByID db id = none := by
        cases hid : getNodeByID db id with
        | none => rfl
        | some n =>
          obtain ⟨rest, hrest⟩ := getNodeAndAllChildren_head hid hcol
          rw [hlnil] at hrest
          cases hrest
      refine ⟨⟨l, rfl, by rw [hlnil]; exact hcnt.symm, ?_, ?_⟩,
        fun _ => ⟨by omega, hdb.symm⟩, hmissing⟩
      · rw [← hdb]; exact hidnone
      · intro m hm; rw [hlnil] at hm; cases hm
    · rw [if_neg hl] at h
      have hpair := (Option.some.inj h).symm
      have hdb : db2 = (deleteNodes db l.reverse 0).1 := congrArg Prod.fst hpair
      have hcnt : cnt = (deleteNodes db l.reverse 0).2 := congrArg Prod.snd hpair
      have hrowsrev : ∀ n ∈ l.reverse, getNodeByID db n.ID = some n := by
        intro n hn
        exact (hrows n (List.mem_reverse.mp hn)).1
      have hidsrev : (l.reverse.map (·.ID)).Nodup := by
        rw [List.map_reverse]
        exact List.nodup_reverse.mpr hni
      obtain ⟨hcount, hnodes, -⟩ := deleteNodes_spec l.reverse db 0 hnd
        hrowsrev hidsrev
      have hgone : ∀ m ∈ l, getNodeByID db2 m.ID = none := by
        intro m hm
        apply List.find?_eq_none.mpr
        intro row hrow
        rw [hdb, hnodes] at hrow
        have := (List.mem_filter.mp hrow).2
        simp only [decide_eq_true_eq] at this
        simp only [decide_eq_true_eq]
        intro hcon
        exact this (List.mem_map.mpr ⟨m, List.mem_reverse.mpr hm, hcon.symm⟩)
      have hlsome : ∃ n, getNodeByID db id = some n := by
        cases hid : getNodeByID db id with
        | none =>
          have := getNodeAndAllChildren_missing hid hfpos
          rw [hcol] at this
          have hlnil : l = [] := Option.some.inj this
          rw [hlnil] at hl
          simp at hl
        | some n => exact ⟨n, rfl⟩
      obtain ⟨n, hn⟩ := hlsome
      obtain ⟨rest, hrest⟩ := getNodeAndAllChildren_head hn hcol
      refine ⟨⟨l, rfl, ?_, ?_, hgone⟩, ?_, hmissing⟩
      · rw [hcnt, hcount]
        simp
      · have : getNodeByID db2 n.ID = none :=
          hgone n (by rw [hrest]; exact List.mem_cons_self n rest)
        rwa [getNodeByID_id_eq hn] at this
      · intro hnone
        rw [hnone] at hn
        cases hn

/-- Witness for C3 at a concrete input: pruning node a of sampleDB
removes the three collected nodes a, b, c and leaves only d. -/
theorem deleteNodeAndAllChildren_spec_witness :
    NodupIDs sampleDB ∧
    deleteNodeAndAllChildren sampleDB 10 "a" =
      some (⟨[nodeD], some "c"⟩, 3) ∧
    ((∃ l, getNodeAndAllChildren sampleDB 10 "a" = some l ∧ 3 = l.length ∧
      getNodeByID (⟨[nodeD], some "c"⟩ : DB) "a" = none ∧
      (∀ m ∈ l, getNodeByID (⟨[nodeD], some "c"⟩ : DB) m.ID = none)) ∧
     (getNodeByID sampleDB "a" = none → 3 = 0 ∧ (⟨[nodeD], some "c"⟩ : DB) = sampleDB) ∧
     (∀ (d : DB) (f : Nat) (x : String), getNodeByID d x = none → 0 < f →
       deleteNodeAndAllChildren d f x = some (d, 0))) :=
  ⟨sample_nodup, by decide,
   deleteNodeAndAllChildren_spec sampleDB 10 "a" ⟨[nodeD], some "c"⟩ 3
     sample_nodup (by decide)⟩

/-! Ordering invariant of the collection: every collected node appears
after the node its parent link points at (parents precede children in
collection order), so deleting in reverse order removes children
first. -/

theorem append_decomp {α : Type} :
    ∀ (a b l₁ l₂ : List α) (m : α), a ++ b = l₁ ++ m :: l₂ →
      l₁.length < a.length → ∃ l₃, a = l₁ ++ m :: l₃ := by
  intro a
  induction a with
  | nil =>
    intro b l₁ l₂ m _ hlen
    simp at hlen
  | cons x a2 ih =>
    intro b l₁ l₂ m h hlen
    cases l₁ with
    | nil =>
      simp only [List.nil_append, List.cons_append, List.cons.injEq] at h ⊢
      exact ⟨a2, h.1, rfl⟩
    | cons y l₁2 =>
      simp only [List.cons_append, List.cons.injEq] at h
      obtain ⟨rfl, h2⟩ := h
      simp only [List.length_cons] at hlen
      obtain ⟨l₃, hl₃⟩ := ih b l₁2 l₂ m h2 (by omega)
      exact ⟨l₃, by rw [List.cons_append, hl₃]⟩

theorem collect_link {db : DB} (hnd : NodupIDs db) : ∀ fuel : Nat,
    (∀ (nodeID : String) (st res : List Node × List String),
      collectNodeAndChildren db fuel nodeID st = some res →
      ∀ (l₁ : List Node) (m : Node) (l₂ : List Node),
        res.1 = l₁ ++ m :: l₂ → st.1.length ≤ l₁.length →
        (getNodeByID db nodeID = some m ∧ l₁ = st.1) ∨
        (∃ q ∈ l₁, m.Parent = some q.ID)) ∧
    (∀ (cs : List String) (st res : List Node × List String),
      cs.foldlM (fun st2 c => collectNodeAndChildren db fuel c st2) st = some res →
      (∀ c ∈ cs, ∀ nd, getNodeByID db c = some nd →
        ∃ q ∈ st.1, nd.Parent = some q.ID) →
      ∀ (l₁ : List Node) (m : Node) (l₂ : List Node),
        res.1 = l₁ ++ m :: l₂ → st.1.length ≤ l₁.length →
        ∃ q ∈ l₁, m.Parent = some q.ID) := by
  have hlenabs : ∀ (st1 l₁ : List Node) (m : Node) (l₂ : List Node),
      st1 = l₁ ++ m :: l₂ → st1.length ≤ l₁.length → False := by
    intro st1 l₁ m l₂ heq hlen
    have := congrArg List.length heq
    simp [List.length_append] at this
    omega
  intro fuel
  induction fuel with
  | zero =>
    constructor
    · intro nodeID st res h
      simp [collectNodeAndChildren] at h
    · intro cs st res h hcs
      cases cs with
      | nil =>
        simp only [List.foldlM_nil] at h
        obtain rfl : st = res := Option.some.inj h
        intro l₁ m l₂ hdec hlen
        exact (hlenabs st.1 l₁ m l₂ hdec hlen).elim
      | cons c cs =>
        rw [List.foldlM_cons] at h
        simp [collectNodeAndChildren] at h
  | succ fuel ih =>
    have hA : ∀ (nodeID : String) (st res : List Node × List String),
        collectNodeAndChildren db (fuel + 1) nodeID st = some res →
        ∀ (l₁ : List Node) (m : Node) (l₂ : List Node),
          res.1 = l₁ ++ m :: l₂ → st.1.length ≤ l₁.length →
          (getNodeByID db nodeID = some m ∧ l₁ = st.1) ∨
          (∃ q ∈ l₁, m.Parent = some q.ID) := by
      intro nodeID st res h
      simp only [collectNodeAndChildren] at h
      split at h
      · next hvis =>
        obtain rfl : st = res := Option.some.inj h
        intro l₁ m l₂ hdec hlen
        exact (hlenabs st.1 l₁ m l₂ hdec hlen).elim
      · next hvis =>
        split at h
        · next hnone =>
          obtain rfl : (st.1, nodeID :: st.2) = res := Option.some.inj h
          intro l₁ m l₂ hdec hlen
          exact (hlenabs st.1 l₁ m l₂ hdec hlen).elim
        · next node hsome =>
          intro l₁ m l₂ hdec hlen
          have hnodeid : node.ID = nodeID := getNodeByID_id_eq hsome
          have hHC : ∀ c ∈ childIDsOf db nodeID, ∀ nd,
              getNodeByID db c = some nd →
              ∃ q ∈ st.1 ++ [node], nd.Parent = some q.ID := by
            intro c hc nd hnd2
            obtain ⟨r, hr, hpar⟩ := childIDsOf_row hnd hc
            rw [hnd2] at hr
            obtain rfl : nd = r := Option.some.inj hr
            exact ⟨node, List.mem_append_right _ (List.mem_singleton.mpr rfl),
              by rw [hpar, hnodeid]⟩
          by_cases hlen2 : (st.1 ++ [node]).length ≤ l₁.length
          · exact Or.inr (ih.2 (childIDsOf db nodeID)
              (st.1 ++ [node], nodeID :: st.2) res h hHC l₁ m l₂ hdec hlen2)
          · have hleq : l₁.length = st.1.length := by
              simp [List.length_append] at hlen2
              omega
            obtain ⟨new2, -, hres1, -⟩ := (collect_shape fuel).2
              (childIDsOf db nodeID) (st.1 ++ [node], nodeID :: st.2) res h
            rw [hdec] at hres1
            have hres1b : l₁ ++ m :: l₂ = st.1 ++ node :: new2 := by
              rw [hres1]; simp
            obtain ⟨hpre, hsuf⟩ := List.append_inj hres1b (by omega)
            exact Or.inl ⟨by rw [(List.cons.inj hsuf).1]; exact hsome,
              hpre⟩
    refine ⟨hA, ?_⟩
    intro cs
    induction cs with
    | nil =>
      intro st res h hcs
      simp only [List.foldlM_nil] at h
      obtain rfl : st = res := Option.some.inj h
      intro l₁ m l₂ hdec hlen
      exact (hlenabs st.1 l₁ m l₂ hdec hlen).elim
    | cons c cs ihcs =>
      intro st res h hcs
      rw [List.foldlM_cons] at h
      cases hc : collectNodeAndChildren db (fuel + 1) c st with
      | none => rw [hc] at h; cases h
      | some st1 =>
        rw [hc] at h
        replace h : cs.foldlM
            (fun st2 c => collectNodeAndChildren db (fuel + 1) c st2) st1 =
            some res := h
        intro l₁ m l₂ hdec hlen
        obtain ⟨new1, -, h1res1, -⟩ := (collect_shape (fuel + 1)).1 c st st1 hc
        by_cases hlen2 : st1.1.length ≤ l₁.length
        · have hHC2 : ∀ c2 ∈ cs, ∀ nd, getNodeByID db c2 = some nd →
              ∃ q ∈ st1.1, nd.Parent = some q.ID := by
            intro c2 hc2 nd hnd2
            obtain ⟨q, hq, hqpar⟩ := hcs c2 (List.mem_cons_of_mem c hc2) nd hnd2
            exact ⟨q, by rw [h1res1]; exact List.mem_append_left _ hq, hqpar⟩
          exact ihcs st1 res h hHC2 l₁ m l₂ hdec hlen2
        · obtain ⟨new2, -, h2res1, -⟩ := (collect_shape (fuel + 1)).2 cs st1
            res h
          rw [hdec] at h2res1
          obtain ⟨l₃, hl₃⟩ := append_decomp st1.1 new2 l₁ l₂ m h2res1.symm
            (by omega)
          rcases hA c st st1 hc l₁ m l₃ hl₃ hlen with ⟨hlook, hl₁⟩ | hq
          · obtain ⟨q, hq, hqpar⟩ := hcs c (List.mem_cons_self c cs) m hlook
            exact ⟨q, by rw [hl₁]; exact hq, hqpar⟩
          · exact hq

/-! Claim C4. -/

/-- C4: The deletion sequence of DeleteNodeAndAllChildren is exactly
the reverse of the collection order, and in that collection order the
parent referenced by any collected node occurs strictly before it and
never at or after its own position, so at no intermediate point of the
reversed deletion does a remaining record of the subtree reference an
already-deleted node as its parent. -/
theorem deleteNodeAndAllChildren_children_first (db : DB) (fuel : Nat)
    (id : String) (rank : String → Nat) (hwf : WellFormed db rank)
    (hnd : NodupIDs db) (l : List Node)
    (hl : getNodeAndAllChildren db fuel id = some l) :
    (∀ (db2 : DB) (cnt : Nat),
      deleteNodeAndAllChildren db fuel id = some (db2, cnt) →
      l = [] ∨ (db2, cnt) = deleteNodes db l.reverse 0) ∧
    (∀ (l₁ : List Node) (m : Node) (l₂ : List Node), l = l₁ ++ m :: l₂ →
      ∀ pid, m.Parent = some pid → ∀ q ∈ m :: l₂, q.ID ≠ pid) := by
  obtain ⟨vis, hc⟩ := getNodeAndAllChildren_split hl
  obtain ⟨new, delta, hres1, hres2, -, -, hrows, -, hni, -, -⟩ :=
    (collect_shape fuel).1 id ([], []) (l, vis) hc
  simp only at hres1 hres2
  rw [List.nil_append] at hres1
  subst hres1
  rw [List.append_nil] at hres2
  constructor
  · intro db2 cnt h
    simp only [deleteNodeAndAllChildren, hl] at h
    by_cases hle : l.isEmpty = true
    · exact Or.inl (List.isEmpty_iff.mp hle)
    · rw [if_neg hle] at h
      exact Or.inr (Option.some.inj h).symm
  · intro l₁ m l₂ hdec pid hpid q hq hqid
    rcases (collect_link hnd fuel).1 id ([], []) (l, vis) hc l₁ m l₂ hdec
        (by simp) with ⟨hlook, -⟩ | ⟨q2, hq2, hq2par⟩
    · have hqin : q ∈ l := by
        rw [hdec]
        rcases List.mem_cons.mp hq with rfl | hq3
        · exact List.mem_append_right _ (List.mem_cons_self q l₂)
        · exact List.mem_append_right _ (List.mem_cons_of_mem m hq3)
      have hqvis : q.ID ∈ vis := by
        rw [hres2]
        exact (hrows q hqin).2
      have hreach : Reach db id q.ID := by
        rcases (collect_reach fuel).1 id ([], []) (l, vis) hc q.ID hqvis with
          hx | hx
        · cases hx
        · exact hx
      have hr1 := reach_rank hwf hreach
      have hr2 := (hwf m (getNodeByID_mem hlook) pid hpid).2
      rw [getNodeByID_id_eq hlook] at hr2
      rw [hqid] at hr1
      omega
    · have hpids : pid = q2.ID := by
        rw [hpid] at hq2par
        exact Option.some.inj hq2par
      rw [hdec, List.map_append, List.nodup_append] at hni
      exact hni.2.2 (List.mem_map.mpr ⟨q2, hq2, hpids.symm⟩)
        (List.mem_map.mpr ⟨q, hq, hqid⟩)

/-- Witness for C4 at a concrete input: in the collection order a, b,
c of the subtree of a, no node's parent occurs at or after its own
position. -/
theorem deleteNodeAndAllChildren_children_first_witness :
    WellFormed sampleDB sampleRank ∧ NodupIDs sampleDB ∧
    getNodeAndAllChildren sampleDB 10 "a" = some [nodeA, nodeB, nodeC] ∧
    ((∀ (db2 : DB) (cnt : Nat),
      deleteNodeAndAllChildren sampleDB 10 "a" = some (db2, cnt) →
      [nodeA, nodeB, nodeC] = ([] : List Node) ∨
        (db2, cnt) = deleteNodes sampleDB [nodeA, nodeB, nodeC].reverse 0) ∧
     (∀ (l₁ : List Node) (m : Node) (l₂ : List Node),
      [nodeA, nodeB, nodeC] = l₁ ++ m :: l₂ →
      ∀ pid, m.Parent = some pid → ∀ q ∈ m :: l₂, q.ID ≠ pid)) :=
  ⟨sample_wf, sample_nodup, by decide,
   deleteNodeAndAllChildren_children_first sampleDB 10 "a" sampleRank
     sample_wf sample_nodup [nodeA, nodeB, nodeC] (by decide)⟩

/-! Under the forest invariant a collection run never hits its visited
guard, so the block of rows it appends is independent of the incoming
accumulator and of any visited set disjoint from the reachable ids;
this lets the shared-visited recursion over the children be compared
with independent fresh collections of each child. -/

theorem collect_pure {db : DB} {rank : String → Nat} (hwf : WellFormed db rank)
    (hnd : NodupIDs db) : ∀ fuel : Nat,
    (∀ (nodeID : String) (st res : List Node × List String),
      collectNodeAndChildren db fuel nodeID st = some res →
      (∀ x, Reach db nodeID x → x ∉ st.2) →
      ∃ new delta, res = (st.1 ++ new, delta ++ st.2) ∧
        (∀ x ∈ delta, Reach db nodeID x) ∧
        (∀ st2 : List Node × List String,
          (∀ x, Reach db nodeID x → x ∉ st2.2) →
          collectNodeAndChildren db fuel nodeID st2 =
            some (st2.1 ++ new, delta ++ st2.2))) ∧
    (∀ (cs : List String) (st res : List Node × List String),
      cs.foldlM (fun st2 c => collectNodeAndChildren db fuel c st2) st = some res →
      cs.Nodup →
      (∀ c1 ∈ cs, ∀ c2 ∈ cs, c1 ≠ c2 →
        ∀ x, Reach db c1 x → Reach db c2 x → False) →
      (∀ c ∈ cs, ∀ x, Reach db c x → x ∉ st.2) →
      ∃ new delta, res = (st.1 ++ new, delta ++ st.2) ∧
        (∀ x ∈ delta, ∃ c ∈ cs, Reach db c x) ∧
        (∀ st2 : List Node × List String,
          (∀ c ∈ cs, ∀ x, Reach db c x → x ∉ st2.2) →
          cs.foldlM (fun st3 c => collectNodeAndChildren db fuel c st3) st2 =
            some (st2.1 ++ new, delta ++ st2.2))) := by
  intro fuel
  induction fuel with
  | zero =>
    constructor
    · intro nodeID st res h
      simp [collectNodeAndChildren] at h
    · intro cs st res h
      cases cs with
      | nil =>
        simp only [List.foldlM_nil] at h
        obtain rfl : st = res := Option.some.inj h
        intro _ _ _
        exact ⟨[], [], by simp, by simp, fun st2 _ => by simp⟩
      | cons c cs =>
        rw [List.foldlM_cons] at h
        simp [collectNodeAndChildren] at h
  | succ fuel ih =>
    have hA : ∀ (nodeID : String) (st res : List Node × List String),
        collectNodeAndChildren db (fuel + 1) nodeID st = some res →
        (∀ x, Reach db nodeID x → x ∉ st.2) →
        ∃ new delta, res = (st.1 ++ new, delta ++ st.2) ∧
          (∀ x ∈ delta, Reach db nodeID x) ∧
          (∀ st2 : List Node × List String,
            (∀ x, Reach db nodeID x → x ∉ st2.2) →
            collectNodeAndChildren db (fuel + 1) nodeID st2 =
              some (st2.1 ++ new, delta ++ st2.2)) := by
      intro nodeID st res h hv
      simp only [collectNodeAndChildren] at h
      rw [if_neg (hv nodeID Reach.refl)] at h
      split at h
      · next hnone =>
        obtain rfl : (st.1, nodeID :: st.2) = res := Option.some.inj h
        refine ⟨[], [nodeID], by simp, ?_, ?_⟩
        · intro x hx
          rw [List.mem_singleton.mp hx]
          exact Reach.refl
        · intro st2 hv2
          simp only [collectNodeAndChildren, hnone]
          rw [if_neg (hv2 nodeID Reach.refl)]
          simp
      · next node hsome =>
        have hnodeid : node.ID = nodeID := getNodeByID_id_eq hsome
        have hkreach : ∀ c ∈ childIDsOf db nodeID, Reach db nodeID c := by
          intro c hc
          obtain ⟨r, hr, hpar⟩ := childIDsOf_row hnd hc
          exact reach_child (getNodeByID_mem hr) (getNodeByID_id_eq hr) hpar
        have hkrank : ∀ c ∈ childIDsOf db nodeID, rank nodeID < rank c := by
          intro c hc
          obtain ⟨r, hr, hpar⟩ := childIDsOf_row hnd hc
          have := (hwf r (getNodeByID_mem hr) nodeID hpar).2
          rwa [getNodeByID_id_eq hr] at this
        have hkpair : ∀ c1 ∈ childIDsOf db nodeID, ∀ c2 ∈ childIDsOf db nodeID,
            c1 ≠ c2 → ∀ x, Reach db c1 x → Reach db c2 x → False := by
          intro c1 hc1 c2 hc2 hne x hx1 hx2
          obtain ⟨r1, hr1, hp1⟩ := childIDsOf_row hnd hc1
          obtain ⟨r2, hr2, hp2⟩ := childIDsOf_row hnd hc2
          exact sibling_disjoint hwf hnd hr1 hp1 hr2 hp2 hne hx1 hx2
        have hvkids : ∀ (v : List String), (∀ x, Reach db nodeID x → x ∉ v) →
            ∀ c ∈ childIDsOf db nodeID, ∀ x, Reach db c x →
              x ∉ (nodeID :: v) := by
          intro v hv0 c hc x hre hcon
          rcases List.mem_cons.mp hcon with rfl | hcon2
          · have h1 := reach_rank hwf hre
            have h2 := hkrank c hc
            omega
          · exact hv0 x (reach_trans (hkreach c hc) hre) hcon2
        obtain ⟨new2, delta2, hres, hdr, hrerun⟩ := ih.2 (childIDsOf db nodeID)
          (st.1 ++ [node], nodeID :: st.2) res h (childIDsOf_nodup hnd nodeID)
          hkpair (hvkids st.2 hv)
        refine ⟨node :: new2, delta2 ++ [nodeID], ?_, ?_, ?_⟩
        · rw [hres]
          simp
        · intro x hx
          rcases List.mem_append.mp hx with hx | hx
          · obtain ⟨c, hc, hre⟩ := hdr x hx
            exact reach_trans (hkreach c hc) hre
          · rw [List.mem_singleton.mp hx]
            exact Reach.refl
        · intro st2 hv2
          simp only [collectNodeAndChildren, hsome]
          rw [if_neg (hv2 nodeID Reach.refl)]
          rw [hrerun (st2.1 ++ [node], nodeID :: st2.2) (hvkids st2.2 hv2)]
          simp
    refine ⟨hA, ?_⟩
    intro cs
    induction cs with
    | nil =>
      intro st res h _ _ _
      simp only [List.foldlM_nil] at h
      obtain rfl : st = res := Option.some.inj h
      exact ⟨[], [], by simp, by simp, fun st2 _ => by simp⟩
    | cons c cs ihcs =>
      intro st res h hnodup hpair hv
      rw [List.foldlM_cons] at h
      cases hc : collectNodeAndChildren db (fuel + 1) c st with
      | none => rw [hc] at h; cases h
      | some st1 =>
        rw [hc] at h
        replace h : cs.foldlM
            (fun st2 c => collectNodeAndChildren db (fuel + 1) c st2) st1 =
            some res := h
        rw [List.nodup_cons] at hnodup
        obtain ⟨new1, delta1, hres1, hdr1, hrr1⟩ :=
          hA c st st1 hc (hv c (List.mem_cons_self c cs))
        have hpair2 : ∀ c1 ∈ cs, ∀ c2 ∈ cs, c1 ≠ c2 →
            ∀ x, Reach db c1 x → Reach db c2 x → False := by
          intro c1 hc1 c2 hc2 hne x hx1 hx2
          exact hpair c1 (List.mem_cons_of_mem c hc1) c2
            (List.mem_cons_of_mem c hc2) hne x hx1 hx2
        have hvtail : ∀ (v : List String),
            (∀ c2 ∈ c :: cs, ∀ x, Reach db c2 x → x ∉ v) →
            ∀ c2 ∈ cs, ∀ x, Reach db c2 x → x ∉ (delta1 ++ v) := by
          intro v hv0 c2 hc2 x hre hcon
          rcases List.mem_append.mp hcon with hcon2 | hcon2
          · have hcne : c2 ≠ c := fun hcc => hnodup.1 (hcc ▸ hc2)
            exact hpair c2 (List.mem_cons_of_mem c hc2) c
              (List.mem_cons_self c cs) hcne x hre (hdr1 x hcon2)
          · exact hv0 c2 (List.mem_cons_of_mem c hc2) x hre hcon2
        have hst12 : st1.2 = delta1 ++ st.2 := by rw [hres1]
        obtain ⟨new2, delta2, hres2, hdr2, hrr2⟩ := ihcs st1 res h hnodup.2
          hpair2 (by rw [hst12]; exact hvtail st.2 hv)
        refine ⟨new1 ++ new2, delta2 ++ delta1, ?_, ?_, ?_⟩
        · rw [hres2, hres1]
          simp
        · intro x hx
          rcases List.mem_append.mp hx with hx | hx
          · obtain ⟨c2, hc2, hre⟩ := hdr2 x hx
            exact ⟨c2, List.mem_cons_of_mem c hc2, hre⟩
          · exact ⟨c, List.mem_cons_self c cs, hdr1 x hx⟩
        · intro st2 hv2
          rw [List.foldlM_cons, hrr1 st2 (hv2 c (List.mem_cons_self c cs))]
          have hstep := hrr2 (st2.1 ++ new1, delta1 ++ st2.2)
            (hvtail st2.2 hv2)
          exact hstep.trans (by simp)

/-! Decomposing the shared-visited child loop into independent fresh
collections of each child. -/

theorem collect_fold_parts {db : DB} {rank : String → Nat}
    (hwf : WellFormed db rank) (hnd : NodupIDs db) (fuel : Nat) :
    ∀ (cs : List String) (st res : List Node × List String),
      cs.foldlM (fun st2 c => collectNodeAndChildren db fuel c st2) st = some res →
      cs.Nodup →
      (∀ c1 ∈ cs, ∀ c2 ∈ cs, c1 ≠ c2 →
        ∀ x, Reach db c1 x → Reach db c2 x → False) →
      (∀ c ∈ cs, ∀ x, Reach db c x → x ∉ st.2) →
      res.1 = st.1 ++
        (cs.map (fun c => (getNodeAndAllChildren db fuel c).getD [])).flatten ∧
      ∀ c ∈ cs, getNodeAndAllChildren db fuel c ≠ none := by
  intro cs
  induction cs with
  | nil =>
    intro st res h _ _ _
    simp only [List.foldlM_nil] at h
    obtain rfl : st = res := Option.some.inj h
    exact ⟨by simp, by simp⟩
  | cons c cs ihcs =>
    intro st res h hnodup hpair hv
    rw [List.foldlM_cons] at h
    cases hc : collectNodeAndChildren db fuel c st with
    | none => rw [hc] at h; cases h
    | some st1 =>
      rw [hc] at h
      replace h : cs.foldlM
          (fun st2 c => collectNodeAndChildren db fuel c st2) st1 =
          some res := h
      rw [List.nodup_cons] at hnodup
      obtain ⟨new1, delta1, hres1, hdr1, hrr1⟩ :=
        (collect_pure hwf hnd fuel).1 c st st1 hc (hv c (List.mem_cons_self c cs))
      have hfresh : collectNodeAndChildren db fuel c ([], []) =
          some (new1, delta1) := by
        have := hrr1 ([], []) (by intro x _ hx; cases hx)
        simpa using this
      have hga : getNodeAndAllChildren db fuel c = some new1 := by
        simp only [getNodeAndAllChildren, hfresh]
      have hpair2 : ∀ c1 ∈ cs, ∀ c2 ∈ cs, c1 ≠ c2 →
          ∀ x, Reach db c1 x → Reach db c2 x → False := by
        intro c1 hc1 c2 hc2 hne x hx1 hx2
        exact hpair c1 (List.mem_cons_of_mem c hc1) c2
          (List.mem_cons_of_mem c hc2) hne x hx1 hx2
      have hst12 : st1.2 = delta1 ++ st.2 := by rw [hres1]
      have hvtail : ∀ c2 ∈ cs, ∀ x, Reach db c2 x → x ∉ st1.2 := by
        intro c2 hc2 x hre hcon
        rw [hst12] at hcon
        rcases List.mem_append.mp hcon with hcon2 | hcon2
        · have hcne : c2 ≠ c := fun hcc => hnodup.1 (hcc ▸ hc2)
          exact hpair c2 (List.mem_cons_of_mem c hc2) c
            (List.mem_cons_self c cs) hcne x hre (hdr1 x hcon2)
        · exact hv c2 (List.mem_cons_of_mem c hc2) x hre hcon2
      obtain ⟨hflat, hnn⟩ := ihcs st1 res h hnodup.2 hpair2 hvtail
      constructor
      · rw [hflat]
        have hst11 : st1.1 = st.1 ++ new1 := by rw [hres1]
        rw [hst11, List.map_cons, List.flatten_cons, hga]
        simp
      · intro c2 hc2
        rcases List.mem_cons.mp hc2 with rfl | hc2
        · rw [hga]; exact Option.noConfusion
        · exact hnn c2 hc2

/-! Completeness of the collection: every row reachable from the start
node is collected, because a collected row's children are all marked
visited and every visited id of an existing row is collected. -/

theorem collect_complete {db : DB} {rank : String → Nat}
    (hwf : WellFormed db rank) (hnd : NodupIDs db) {fuel : Nat} {id : String}
    {l : List Node} {vis : List String}
    (hc : collectNodeAndChildren db fuel id ([], []) = some (l, vis)) :
    ∀ x, Reach db id x → ∀ p, getNodeByID db x = some p → p ∈ l := by
  obtain ⟨new, delta, hres1, hres2, -, -, hrows, hva, -, hcv, -⟩ :=
    (collect_shape fuel).1 id ([], []) (l, vis) hc
  simp only at hres1 hres2
  rw [List.nil_append] at hres1
  subst hres1
  rw [List.append_nil] at hres2
  have hga : getNodeAndAllChildren db fuel id = some l := by
    simp only [getNodeAndAllChildren, hc]
  intro x hre
  induction hre with
  | refl =>
    intro p hp
    obtain ⟨rest, hrest⟩ := getNodeAndAllChildren_head hp hga
    rw [hrest]
    exact List.mem_cons_self p rest
  | step r hr hpar hrey ih =>
    intro p hp
    have hpr : p = r :=
      row_unique hnd (getNodeByID_mem hp) hr (getNodeByID_id_eq hp)
    obtain ⟨⟨q, hq⟩, -⟩ := hwf r hr _ hpar
    have hql : q ∈ l := ih q hq
    have hchild : r.ID ∈ childIDsOf db q.ID := by
      apply mem_childIDsOf.mpr
      exact ⟨r, hr, by rw [hpar, getNodeByID_id_eq hq], rfl⟩
    have hvis2 : r.ID ∈ vis := hcv q hql r.ID hchild
    rw [hres2] at hvis2
    rcases hva r.ID hvis2 with ⟨m, hm, hmid⟩ | hnone
    · have hmp : m = p := by
        have := (hrows m hm).1
        rw [hmid, hp] at this
        exact (Option.some.inj this).symm
      rw [← hmp]
      exact hm
    · rw [hp] at hnone
      cases hnone

/-! Claim C8. -/

/-- C8: Collect subtree of an id that does not resolve returns an
empty result and no error; for a resolvable id the successful result
contains the node and every transitive descendant, each node at most
once (pairwise distinct ids), and its size obeys the recursive law:
one plus the sum of the subtree sizes of the direct children, under
the forest invariant that makes the shared visited set harmless. -/
theorem getNodeAndAllChildren_spec (db : DB) (fuel : Nat) (id : String)
    (rank : String → Nat) (hwf : WellFormed db rank) (hnd : NodupIDs db) :
    (getNodeByID db id = none → 0 < fuel →
      getNodeAndAllChildren db fuel id = some []) ∧
    (∀ l, getNodeAndAllChildren db fuel id = some l →
      (l.map (·.ID)).Nodup ∧
      (∀ m ∈ l, getNodeByID db m.ID = some m) ∧
      (∀ x, Reach db id x → ∀ p, getNodeByID db x = some p → p ∈ l) ∧
      (∀ n, getNodeByID db id = some n → n ∈ l ∧
        l.length = 1 + ((getDirectChildren db id).map
          (fun c => ((getNodeAndAllChildren db fuel c.ID).getD []).length)).sum ∧
        (∀ c ∈ getDirectChildren db id,
          getNodeAndAllChildren db fuel c.ID ≠ none))) := by
  refine ⟨fun hn hf => getNodeAndAllChildren_missing hn hf, ?_⟩
  intro l hl
  obtain ⟨vis, hc⟩ := getNodeAndAllChildren_split hl
  obtain ⟨new, delta, hres1, hres2, -, -, hrows, -, hni, -, -⟩ :=
    (collect_shape fuel).1 id ([], []) (l, vis) hc
  simp only at hres1 hres2
  rw [List.nil_append] at hres1
  subst hres1
  refine ⟨hni, fun m hm => (hrows m hm).1, collect_complete hwf hnd hc, ?_⟩
  intro n hn
  cases fuel with
  | zero => simp [collectNodeAndChildren] at hc
  | succ f =>
    simp only [collectNodeAndChildren, hn] at hc
    rw [if_neg (by simp : ¬(id ∈ ([] : List String)))] at hc
    have hkrank : ∀ c ∈ childIDsOf db id, rank id < rank c := by
      intro c hc2
      obtain ⟨r, hr, hpar⟩ := childIDsOf_row hnd hc2
      have := (hwf r (getNodeByID_mem hr) id hpar).2
      rwa [getNodeByID_id_eq hr] at this
    have hkpair : ∀ c1 ∈ childIDsOf db id, ∀ c2 ∈ childIDsOf db id, c1 ≠ c2 →
        ∀ x, Reach db c1 x → Reach db c2 x → False := by
      intro c1 hc1 c2 hc2 hne x hx1 hx2
      obtain ⟨r1, hr1, hp1⟩ := childIDsOf_row hnd hc1
      obtain ⟨r2, hr2, hp2⟩ := childIDsOf_row hnd hc2
      exact sibling_disjoint hwf hnd hr1 hp1 hr2 hp2 hne hx1 hx2
    have hkv : ∀ c ∈ childIDsOf db id, ∀ x, Reach db c x →
        x ∉ (id :: ([] : List String)) := by
      intro c hc2 x hre hcon
      rcases List.mem_cons.mp hcon with rfl | hcon2
      · have h1 := reach_rank hwf hre
        have h2 := hkrank c hc2
        omega
      · cases hcon2
    obtain ⟨hflat, hnn⟩ := collect_fold_parts hwf hnd f (childIDsOf db id)
      ([] ++ [n], id :: []) (l, vis) hc (childIDsOf_nodup hnd id) hkpair hkv
    simp only at hflat
    have hup : ∀ c ∈ childIDsOf db id,
        getNodeAndAllChildren db (f + 1) c = getNodeAndAllChildren db f c := by
      intro c hc2
      cases hgc : getNodeAndAllChildren db f c with
      | none => exact absurd hgc (hnn c hc2)
      | some part => rw [getNodeAndAllChildren_fuel_le (Nat.le_succ f) hgc]
    refine ⟨?_, ?_, ?_⟩
    · rw [hflat]
      simp
    · have h1 : ((getDirectChildren db id).map
          (fun c => ((getNodeAndAllChildren db (f + 1) c.ID).getD []).length)).sum =
          ((childIDsOf db id).map
          (fun c => ((getNodeAndAllChildren db f c).getD []).length)).sum := by
        rw [show getDirectChildren db id =
            sortByID (db.nodes.filter (fun n2 => decide (n2.Parent = some id)))
            from rfl]
        rw [((sortByID_perm
          (db.nodes.filter (fun n2 => decide (n2.Parent = some id)))).map
          (fun c => ((getNodeAndAllChildren db (f + 1) c.ID).getD []).length)).sum_eq]
        rw [show (db.nodes.filter
              (fun n2 => decide (n2.Parent = some id))).map
              (fun c => ((getNodeAndAllChildren db (f + 1) c.ID).getD []).length) =
            (childIDsOf db id).map
              (fun c => ((getNodeAndAllChildren db (f + 1) c).getD []).length) by
          rw [childIDsOf, List.map_map]
          rfl]
        exact congrArg List.sum
          (List.map_congr_left (fun c hc2 => by rw [hup c hc2]))
      have h2 : l.length = 1 + ((childIDsOf db id).map
          (fun c => ((getNodeAndAllChildren db f c).getD []).length)).sum := by
        rw [hflat]
        simp [List.length_flatten, List.map_map, Function.comp_def]
        omega
      rw [h2, h1]
    · intro c hcdc
      have hcfil : c ∈ db.nodes.filter (fun n2 => decide (n2.Parent = some id)) :=
        (sortByID_perm _).mem_iff.mp hcdc
      have hcid : c.ID ∈ childIDsOf db id := List.mem_map.mpr ⟨c, hcfil, rfl⟩
      rw [hup c.ID hcid]
      exact hnn c.ID hcid

/-- Witness for C8 at a concrete input: the subtree of node a of
sampleDB holds a, b, c; a has the single direct child b whose subtree
has two nodes, matching the size law, and a missing id probes to an
empty result. -/
theorem getNodeAndAllChildren_spec_witness :
    WellFormed sampleDB sampleRank ∧ NodupIDs sampleDB ∧
    getNodeAndAllChildren sampleDB 10 "a" = some [nodeA, nodeB, nodeC] ∧
    (([nodeA, nodeB, nodeC].map (·.ID)).Nodup ∧
     (∀ m ∈ [nodeA, nodeB, nodeC], getNodeByID sampleDB m.ID = some m) ∧
     (∀ x, Reach sampleDB "a" x → ∀ p, getNodeByID sampleDB x = some p →
       p ∈ [nodeA, nodeB, nodeC]) ∧
     (∀ n, getNodeByID sampleDB "a" = some n → n ∈ [nodeA, nodeB, nodeC] ∧
       [nodeA, nodeB, nodeC].length =
         1 + ((getDirectChildren sampleDB "a").map
           (fun c => ((getNodeAndAllChildren sampleDB 10 c.ID).getD []).length)).sum ∧
       (∀ c ∈ getDirectChildren sampleDB "a",
         getNodeAndAllChildren sampleDB 10 c.ID ≠ none))) :=
  ⟨sample_wf, sample_nodup, by decide,
   (getNodeAndAllChildren_spec sampleDB 10 "a" sampleRank sample_wf
     sample_nodup).2 [nodeA, nodeB, nodeC] (by decide)⟩

end Bonsai
